import Mathlib

/-!
# ndarray: selector algebra and array views

A shallow embedding of the two source files of the repository.

* `Old`  embeds the skip-aware `selector<Rank, Axis>` of `src/old.cpp`.
* `Hpp`  embeds the `selector<Rank, Axis>` and the `ndarray<Rank>` of `src/ndarray.hpp`.

Conventions of the embedding.

* The template parameters `Rank` and `Axis` are the fields `rank` and `axis`.
* A `std::array<int, rank>` is a `List Int`; a well-formed value has length `rank`.
* The C++ `int` is the mathematical integer: signed overflow is undefined behaviour in the
  source and is outside the embedding.  `a / b` on `int` truncates toward zero, which is
  `Int.tdiv`.
* Reading `a[n]` is `elem a n`; it yields `0` where the source would read out of range.
* A `static_assert` that fails means that the member function does not exist for that
  instantiation: the embedded function returns `none`.
* A `std::shared_ptr<std::vector<double>>` is a handle (an index) into a `Heap`; the
  element type is a parameter since the values are only stored and loaded.
-/

/-- Array read `a[n]` of a `std::array<int, N>`. -/
abbrev elem (a : List Int) (n : Nat) : Int := a.getD n 0

/-- The call `std::accumulate(c.begin(), c.end(), 1, std::multiplies<>())`. -/
def product (c : List Int) : Int := c.foldl (fun acc x => acc * x) 1

/-- The algorithm `std::partial_sum(first, last, d_first, op)`; the result is the list of
values written to the output range, in the order they are written. -/
def partial_sum (op : Int → Int → Int) : List Int → List Int
  | [] => []
  | x :: xs => x :: go x xs
where
  /-- The loop of `std::partial_sum` after the first element, `acc` being the running value. -/
  go (acc : Int) : List Int → List Int
    | [] => []
    | y :: ys => op acc y :: go (op acc y) ys

namespace Old

/-- The struct `selector<Rank, Axis>` of `src/old.cpp`. -/
structure selector where
  /-- Template parameter `Rank`. -/
  rank : Nat
  /-- Template parameter `Axis`. -/
  axis : Nat
  count : List Int
  start : List Int
  final : List Int
  skips : List Int
deriving DecidableEq, Repr

namespace selector

/-- The two `static_assert`s of `collapse` (and of `combine`):
`rank > 0` and `axis < rank - 1`. -/
def collapse_guard (S : selector) : Bool :=
  decide (0 < S.rank) && decide (S.axis < S.rank - 1)

/-- The member `selector::collapse(int start_index)` of `src/old.cpp`, lines 19-51.
Entry `n` of each result array is the value the source writes there:
the first loop writes the entries `n < axis`, the second loop the entries
`axis + 1 <= n < rank - 1`, the four assignments after the loops the entry `axis`. -/
def collapse (S : selector) (start_index : Int) : Option selector :=
  if S.collapse_guard then
    let a := S.axis
    some
      ⟨S.rank - 1, S.axis,
       (List.range (S.rank - 1)).map (fun n =>
          if n < a then elem S.count n
          else if n = a then elem S.count a * elem S.count (a + 1)
          else elem S.count (n + 1)),
       (List.range (S.rank - 1)).map (fun n =>
          if n < a then elem S.start n
          else if n = a then
            elem S.count a * elem S.start a + elem S.start (a + 1)
              + start_index * elem S.count (a + 1)
          else elem S.start (n + 1)),
       (List.range (S.rank - 1)).map (fun n =>
          if n < a then elem S.final n
          else if n = a then
            elem S.count a * elem S.start a + elem S.final (a + 1)
              + start_index * elem S.count (a + 1)
          else elem S.final (n + 1)),
       (List.range (S.rank - 1)).map (fun n =>
          if n < a then elem S.skips n
          else if n = a then 1
          else elem S.final (n + 1))⟩
  else none

/-- The member `selector::on<other_axis>()`. -/
def on_ (S : selector) (other_axis : Nat) : selector :=
  ⟨S.rank, other_axis, S.count, S.start, S.final, S.skips⟩

/-- The member `selector::reset()`. -/
def reset (S : selector) : selector :=
  ⟨S.rank, 0, S.count, S.start, S.final, S.skips⟩

/-- The member `selector::combine()` of `src/old.cpp`, lines 53-85; it has the two
`static_assert`s of `collapse`. -/
def combine (S : selector) : Option selector :=
  if S.collapse_guard then
    let a := S.axis
    some
      ⟨S.rank - 1, S.axis,
       (List.range (S.rank - 1)).map (fun n =>
          if n < a then elem S.count n
          else if n = a then elem S.count a * elem S.count (a + 1)
          else elem S.count (n + 1)),
       (List.range (S.rank - 1)).map (fun n =>
          if n < a then elem S.start n
          else if n = a then 0
          else elem S.start (n + 1)),
       (List.range (S.rank - 1)).map (fun n =>
          if n < a then elem S.final n
          else if n = a then elem S.count a * elem S.count (a + 1)
          else elem S.final (n + 1)),
       (List.range (S.rank - 1)).map (fun n =>
          if n < a then elem S.skips n
          else if n = a then elem S.skips a * (if a = 0 then 1 else elem S.skips (a - 1))
          else elem S.skips (n + 1))⟩
  else none

/-- The overload `selector::select(int start_index)`, the alias of `collapse`. -/
def select_int (S : selector) (start_index : Int) : Option selector := S.collapse start_index

/-- The overload `selector::select(std::tuple<int, int> range)`, lines 98-111; its
`static_assert` is `axis < rank`. -/
def select (S : selector) (range : Int × Int) : Option selector :=
  if S.axis < S.rank then
    some
      ⟨S.rank, S.axis + 1, S.count,
       S.start.set S.axis (elem S.start S.axis + range.1),
       S.final.set S.axis (elem S.start S.axis + range.2),
       S.skips⟩
  else none

/-- The overload `selector::select(int start_index, int final_index)`. -/
def select_int_int (S : selector) (start_index final_index : Int) : Option selector :=
  S.select (start_index, final_index)

/-- One argument of the variadic `select`: an `int` or a `std::tuple<int, int>`. -/
inductive select_arg where
  | index (start_index : Int)
  | range (range : Int × Int)
deriving DecidableEq, Repr

/-- The call `select(first)` with one argument of either type. -/
def select_one (S : selector) : select_arg → Option selector
  | .index i => S.select_int i
  | .range r => S.select r

/-- The variadic overload `selector::select(First first, Rest... rest)`, lines 122-126,
which returns `select(first).select(rest...)`.  A call with exactly two `int`s is the
non-template overload `select(int, int)`; there is no overload without arguments. -/
def select_args (S : selector) : List select_arg → Option selector
  | [] => none
  | [x] => S.select_one x
  | [.index i, .index j] => S.select_int_int i j
  | x :: y :: rest => (S.select_one x).bind (fun T => select_args T (y :: rest))

/-- The member `selector::operator==`; both operands have the same `rank` and `axis`. -/
def eq (S other : selector) : Bool :=
  decide (S.count = other.count) && decide (S.start = other.start) &&
  decide (S.final = other.final) && decide (S.skips = other.skips)

/-- The member `selector::shape()`. -/
def shape (S : selector) : List Int :=
  (List.range S.rank).map (fun n => (elem S.final n - elem S.start n).tdiv (elem S.skips n))

/-- The member `selector::size()`. -/
def size (S : selector) : Int := product S.shape

/-- The `while` loop of `selector::next`, entered with loop variable `n` and with
`index[n]` already advanced by `skips[n]`. -/
def next_loop (S : selector) : Nat → List Int → Bool × List Int
  | 0, index =>
    if elem index 0 = elem S.final 0 then (false, S.final) else (true, index)
  | n + 1, index =>
    if elem index (n + 1) = elem S.final (n + 1) then
      let index1 := index.set (n + 1) (elem S.start (n + 1))
      let index2 := index1.set n (elem index1 n + elem S.skips n)
      next_loop S n index2
    else (true, index)

/-- The member `selector::next(std::array<int, rank>& index)`, lines 184-204: the returned
pair is the `bool` result and the value left in `index`.  It is meant for `rank >= 1`
(for rank 0 the source reads `index[-1]`). -/
def next (S : selector) (index : List Int) : Bool × List Int :=
  let n := S.rank - 1
  next_loop S n (index.set n (elem index n + elem S.skips n))

/-- The nested class `selector::iterator`. -/
structure iterator where
  sel : selector
  ind : List Int
deriving DecidableEq, Repr

/-- The prefix `iterator::operator++`: it calls `sel.next(ind)` and drops the result. -/
def iterator.incr (it : iterator) : iterator := ⟨it.sel, (it.sel.next it.ind).2⟩

/-- The comparison `iterator::operator==`, which compares the coordinates only. -/
def iterator.eq (it other : iterator) : Bool := decide (it.ind = other.ind)

/-- The comparison `iterator::operator!=`, which compares the coordinates only. -/
def iterator.ne (it other : iterator) : Bool := decide (it.ind ≠ other.ind)

/-- The member `selector::begin()`. -/
def begin (S : selector) : iterator := ⟨S.reset, S.start⟩

/-- The member `selector::end()`. -/
def end_ (S : selector) : iterator := ⟨S.reset, S.final⟩

/-- The loop `do { visit(I); } while (S.next(I));` of the `next` tests (lines 364-414),
started at `index`: the coordinates visited, or `none` when `fuel` calls of `next`
all returned `true`. -/
def walk (S : selector) : Nat → List Int → Option (List (List Int))
  | 0, _ => none
  | fuel + 1, index =>
    if (S.next index).1 then (walk S fuel (S.next index).2).map (fun l => index :: l)
    else some [index]

/-- The loop `for (it = begin(); it != end(); ++it) visit(*it);` behind the range-based
`for (auto index : S)` of the iterator test (lines 417-427), continued from the cursor `it`:
the coordinates visited, or `none` when the cursor is still not `end()` after `fuel` steps. -/
def range_for (S : selector) : Nat → iterator → Option (List (List Int))
  | 0, it => if it.ne S.end_ then none else some []
  | fuel + 1, it =>
    if it.ne S.end_ then (range_for S fuel it.incr).map (fun l => it.ind :: l)
    else some []

/-- The coordinates `start[n] + k * skips[n]`, `0 <= k < shape()[n]`, of axis `n`, in
increasing `k`. -/
def axis_values (S : selector) (n : Nat) : List Int :=
  (List.range (elem S.shape n).toNat).map (fun (j : Nat) => elem S.start n + (j : Int) * elem S.skips n)

/-- All coordinates whose entry on each axis is taken from the list of that axis, in
row-major order: the last axis varies fastest. -/
def row_major : List (List Int) → List (List Int)
  | [] => [[]]
  | vs :: rest => vs.flatMap (fun v => (row_major rest).map (fun c => v :: c))

/-- The enumeration order contract of the selector: the coordinates `c` with
`c[n] = start[n] + k * skips[n]`, `0 <= k < shape()[n]`, in row-major order. -/
def coordinates (S : selector) : List (List Int) :=
  row_major ((List.range S.rank).map S.axis_values)

/-- The selector contract of the specification:
`0 <= start[n] <= final[n] <= count[n] * skips[n]` on every axis. -/
def contract (S : selector) : Prop :=
  ∀ n, n < S.rank → 0 ≤ elem S.start n ∧ elem S.start n ≤ elem S.final n ∧
    elem S.final n ≤ elem S.count n * elem S.skips n

instance (S : selector) : Decidable S.contract := by
  unfold contract; infer_instance

/-- The preconditions of the enumeration by `next`: rank at least 1, arrays of `rank`
entries and, on every axis, a positive skip that divides the non-empty extent. -/
def enumerable (S : selector) : Prop :=
  1 ≤ S.rank ∧ S.start.length = S.rank ∧ S.final.length = S.rank ∧ S.skips.length = S.rank ∧
  ∀ n, n < S.rank → 0 < elem S.skips n ∧ elem S.start n < elem S.final n ∧
    elem S.skips n ∣ elem S.final n - elem S.start n

instance (S : selector) : Decidable S.enumerable := by
  unfold enumerable; infer_instance

/-- The selector `S'` is the selector `S` with one more leading axis, of range `[s, f)`
and skip `k`. -/
structure IsCons (S' S : selector) (s f k : Int) : Prop where
  rank : S'.rank = S.rank + 1
  start : S'.start = s :: S.start
  final : S'.final = f :: S.final
  skips : S'.skips = k :: S.skips

/-- One step of the enumeration: `next` maps the coordinate `c` of `S` to `d` and
returns `true`. -/
def Step (S : selector) (c d : List Int) : Prop := c.length = S.rank ∧ S.next c = (true, d)

end selector

end Old

namespace Hpp

/-- The struct `selector<Rank, Axis>` of `src/ndarray.hpp`. -/
structure selector where
  /-- Template parameter `Rank`. -/
  rank : Nat
  /-- Template parameter `Axis`. -/
  axis : Nat
  count : List Int
  start : List Int
  final : List Int
deriving DecidableEq, Repr

namespace selector

/-- The two `static_assert`s of `collapse` in `src/ndarray.hpp`:
`rank > 0` and `axis < rank`. -/
def collapse_guard (S : selector) : Bool :=
  decide (0 < S.rank) && decide (S.axis < S.rank)

/-- The member `selector::collapse(int start_index)` of `src/ndarray.hpp`, lines 22-50.
Entry `n` of each result array is the value the source writes there; the result arrays
have `rank - 1` entries, so for `rank = 1` the assignments to entry `axis` have no place
in the result. -/
def collapse (S : selector) (start_index : Int) : Option selector :=
  if S.collapse_guard then
    let a := S.axis
    some
      ⟨S.rank - 1, S.axis,
       (List.range (S.rank - 1)).map (fun n =>
          if n < a then elem S.count n
          else if n = a then elem S.count a * elem S.count (a + 1)
          else elem S.count (n + 1)),
       (List.range (S.rank - 1)).map (fun n =>
          if n < a then elem S.start n
          else if n = a then
            elem S.count a * elem S.start a + elem S.start (a + 1) + start_index
          else elem S.start (n + 1)),
       (List.range (S.rank - 1)).map (fun n =>
          if n < a then elem S.final n
          else if n = a then elem S.count a * elem S.start a + elem S.final (a + 1)
          else elem S.final (n + 1))⟩
  else none

/-- The overload `selector::within(int start_index)`, lines 52-55, the alias of
`collapse`. -/
def within_int (S : selector) (start_index : Int) : Option selector := S.collapse start_index

/-- The member `selector::within(std::tuple<int, int> range)`, lines 57-69; its
`static_assert` is `axis < rank`. -/
def within (S : selector) (range : Int × Int) : Option selector :=
  if S.axis < S.rank then
    some
      ⟨S.rank, S.axis + 1, S.count,
       S.start.set S.axis (elem S.start S.axis + range.1),
       S.final.set S.axis (elem S.start S.axis + range.2)⟩
  else none

/-- The member `selector::reset()`. -/
def reset (S : selector) : selector := ⟨S.rank, 0, S.count, S.start, S.final⟩

/-- The member `selector::operator==`; both operands have the same `rank` and `axis`. -/
def eq (S other : selector) : Bool :=
  decide (S.count = other.count) && decide (S.start = other.start) &&
  decide (S.final = other.final)

/-- The member `selector::shape()`. -/
def shape (S : selector) : List Int :=
  (List.range S.rank).map (fun n => elem S.final n - elem S.start n)

/-- The member `selector::size()`. -/
def size (S : selector) : Int := product S.shape

end selector

/-- The buffers that `std::shared_ptr<std::vector<double>>` handles point to: handle `p`
owns the `p`-th buffer. -/
abbrev Heap (α : Type) := List (List α)

/-- The call `std::make_shared<std::vector<double>>(...)` with the given contents: the heap
with the new buffer, and its handle. -/
def Heap.make_shared {α : Type} (h : Heap α) (v : List α) : Heap α × Nat :=
  (h ++ [v], h.length)

/-- The read `data->operator[](m)`; `none` where the source reads out of range. -/
def Heap.load {α : Type} (h : Heap α) (data : Nat) (m : Int) : Option α :=
  if 0 ≤ m then (h.get? data).bind (fun v => v.get? m.toNat) else none

/-- The write `data->operator[](m) = x`; `none` where the source writes out of range. -/
def Heap.store {α : Type} (h : Heap α) (data : Nat) (m : Int) (x : α) : Option (Heap α) :=
  match h.get? data with
  | some v => if 0 ≤ m ∧ m.toNat < v.length then some (h.set data (v.set m.toNat x)) else none
  | none => none

/-- The class `ndarray<Rank>` of `src/ndarray.hpp`; `data` is the handle of the buffer. -/
structure ndarray where
  /-- Template parameter `Rank`. -/
  rank : Nat
  scalar_offset : Int
  count : List Int
  start : List Int
  final : List Int
  skips : List Int
  strides : List Int
  data : Nat
deriving DecidableEq, Repr

namespace ndarray

/-- The helper `constant_array<T, length>(value)`. -/
def constant_array (length : Nat) (value : Int) : List Int := List.replicate length value

/-- The two overloads of `compute_strides`, lines 313-326.  For `rank != 0`,
`std::partial_sum` reads `count` backwards from its last entry down to entry `1` and writes
backwards into `s` from entry `rank - 2` down; then `s[rank - 1] = 1`. -/
def compute_strides (rank : Nat) (count : List Int) : List Int :=
  if rank = 0 then []
  else (1 :: partial_sum (fun x y => x * y) count.reverse.dropLast).reverse

/-- The constructor `ndarray(std::array<int, rank> dim_sizes)`, lines 182-190: the heap
holding the freshly allocated, value-initialised buffer of `product(dim_sizes)` elements,
and the view.  The extents are meant to be non-negative. -/
def of_dims {α : Type} (zero : α) (h : Heap α) (dim_sizes : List Int) : Heap α × ndarray :=
  let r := dim_sizes.length
  let p := h.make_shared (List.replicate (product dim_sizes).toNat zero)
  (p.1, ⟨r, 0, dim_sizes, constant_array r 0, dim_sizes, constant_array r 1,
         compute_strides r dim_sizes, p.2⟩)

/-- The constructor `ndarray(SelectorType selector, data)`, lines 171-180. -/
def of_selector (sel : selector) (data : Nat) : ndarray :=
  ⟨sel.rank, 0, sel.count, sel.start, sel.final, constant_array sel.rank 1,
   compute_strides sel.rank sel.count, data⟩

/-- The rank-0 constructor `ndarray(int scalar_offset, data)`, lines 146-151. -/
def of_scalar_offset (scalar_offset : Int) (data : Nat) : ndarray :=
  ⟨0, scalar_offset, [], [], [], [], [], data⟩

/-- The rank-0 constructor `ndarray(double value)`, lines 139-144: the heap holding the
new one-element buffer, and the view. -/
def of_scalar {α : Type} (h : Heap α) (value : α) : Heap α × ndarray :=
  let p := h.make_shared [value]
  (p.1, ⟨0, 0, [], [], [], [], [], p.2⟩)

/-- The rank-1 constructor `ndarray(std::initializer_list<double> elements)`,
lines 153-162: the heap holding the new buffer with the elements, and the view. -/
def of_list {α : Type} (h : Heap α) (elements : List α) : Heap α × ndarray :=
  let p := h.make_shared elements
  (p.1, ⟨1, 0, [(elements.length : Int)], [0], [(elements.length : Int)], [1], [1], p.2⟩)

/-- The expression of the `assert` in the constructors that take extents and a buffer:
`data->size() == std::accumulate(count.begin(), count.end(), 1, std::multiplies<>())`;
`none` for a handle that owns no buffer. -/
def size_matches {α : Type} (h : Heap α) (count : List Int) (data : Nat) : Option Bool :=
  (h.get? data).map (fun v => decide ((v.length : Int) = product count))

/-- The constructor `ndarray(std::array<int, rank> dim_sizes, data)`, lines 192-201;
`none` is the failure of its `assert`. -/
def of_dims_data {α : Type} (h : Heap α) (dim_sizes : List Int) (data : Nat) : Option ndarray :=
  let r := dim_sizes.length
  if size_matches h dim_sizes data = some true then
    some ⟨r, 0, dim_sizes, constant_array r 0, dim_sizes, constant_array r 1,
          compute_strides r dim_sizes, data⟩
  else none

/-- The constructor `ndarray(count, start, final, data)`, lines 203-216; `none` is the
failure of its `assert`. -/
def of_count_start_final_data {α : Type} (h : Heap α) (count start final : List Int)
    (data : Nat) : Option ndarray :=
  let r := count.length
  if size_matches h count data = some true then
    some ⟨r, 0, count, start, final, constant_array r 1, compute_strides r count, data⟩
  else none

/-- The private member `make_selector()`. -/
def make_selector (A : ndarray) : selector := ⟨A.rank, 0, A.count, A.start, A.final⟩

/-- The member `ndarray::size()`. -/
def size (A : ndarray) : Int := A.make_selector.size

/-- The member `ndarray::shape()`. -/
def shape (A : ndarray) : List Int := A.make_selector.shape

/-- The private member `offset(std::array<int, rank> index)`, lines 297-306. -/
def offset (A : ndarray) (index : List Int) : Int :=
  (List.range A.rank).foldl
    (fun m n => m + (elem A.start n + elem A.skips n * elem index n * elem A.strides n))
    A.scalar_offset

/-- The two overloads of `operator[](int index)`, lines 243-253. -/
def index (A : ndarray) (i : Int) : Option ndarray :=
  if A.rank = 1 then some (of_scalar_offset (A.offset [i]) A.data)
  else (A.make_selector.collapse i).map (fun sel => of_selector sel A.data)

/-- The conversion `operator double()`, lines 264-268; its `static_assert` is `rank == 0`. -/
def to_double {α : Type} (h : Heap α) (A : ndarray) : Option α :=
  if A.rank = 0 then h.load A.data A.scalar_offset else none

/-- The member `ndarray::contiguous()`, lines 270-280. -/
def contiguous (A : ndarray) : Bool :=
  (List.range A.rank).all (fun n =>
    !(decide (elem A.start n ≠ 0) || decide (elem A.final n ≠ elem A.count n)
      || decide (elem A.skips n ≠ 1)))

/-- The member `ndarray::shares(other)`, lines 282-286: the two handles are the same. -/
def shares (A other : ndarray) : Bool := decide (A.data = other.data)

/-- Reading through `operator()(Index... index)`, lines 255-262; the `static_assert` asks
for exactly `rank` coordinates. -/
def get {α : Type} (h : Heap α) (A : ndarray) (idx : List Int) : Option α :=
  if idx.length = A.rank then h.load A.data (A.offset idx) else none

/-- Writing through the reference returned by `operator()(Index... index)`. -/
def put {α : Type} (h : Heap α) (A : ndarray) (idx : List Int) (x : α) : Option (Heap α) :=
  if idx.length = A.rank then h.store A.data (A.offset idx) x else none

end ndarray

end Hpp

/-! ## Theorems -/

namespace Old

/-- The rank-2 selector `selector<2>{{c0, c1}, {s0, s1}, {f0, f1}, {1, 1}}` collapsed at `i`
is the rank-1 selector over `c0 * c1` with the range
`[c0 * s0 + s1 + i * c1, c0 * s0 + f1 + i * c1)`. -/
lemma collapse_rank2 (c0 c1 s0 s1 f0 f1 i : Int) :
    (selector.mk 2 0 [c0, c1] [s0, s1] [f0, f1] [1, 1]).collapse i
      = some (selector.mk 1 0 [c0 * c1] [c0 * s0 + s1 + i * c1] [c0 * s0 + f1 + i * c1] [1]) := by
  simp [selector.collapse, selector.collapse_guard, List.range_succ]

/-- C1: for a rank-2 unit-skip selector with `0 <= start[1] <= final[1] <= count[1]` and
indices `i != j`, both non-negative, `collapse(i)` and `collapse(j)` have size
`shape()[1] = final[1] - start[1]`, and their half-open flat spans `[start[0], final[0])`
have no point in common. -/
theorem collapse_spans_disjoint (c0 c1 s0 s1 f0 f1 i j : Int)
    (hs : 0 ≤ s1) (hsf : s1 ≤ f1) (hfc : f1 ≤ c1) (_hi : 0 ≤ i) (_hj : 0 ≤ j) (hij : i ≠ j) :
    ∃ Si Sj : selector,
      (selector.mk 2 0 [c0, c1] [s0, s1] [f0, f1] [1, 1]).collapse i = some Si ∧
      (selector.mk 2 0 [c0, c1] [s0, s1] [f0, f1] [1, 1]).collapse j = some Sj ∧
      Si.rank = 1 ∧ Sj.rank = 1 ∧
      Si.size = elem (selector.mk 2 0 [c0, c1] [s0, s1] [f0, f1] [1, 1]).shape 1 ∧
      Sj.size = elem (selector.mk 2 0 [c0, c1] [s0, s1] [f0, f1] [1, 1]).shape 1 ∧
      elem (selector.mk 2 0 [c0, c1] [s0, s1] [f0, f1] [1, 1]).shape 1 = f1 - s1 ∧
      ∀ x : Int, ¬ (elem Si.start 0 ≤ x ∧ x < elem Si.final 0 ∧
                    elem Sj.start 0 ≤ x ∧ x < elem Sj.final 0) := by
  refine ⟨_, _, collapse_rank2 c0 c1 s0 s1 f0 f1 i, collapse_rank2 c0 c1 s0 s1 f0 f1 j,
    rfl, rfl, ?_, ?_, ?_, ?_⟩
  · simp [selector.size, selector.shape, product, List.range_succ]
  · simp [selector.size, selector.shape, product, List.range_succ]
  · simp [selector.shape, List.range_succ]
  · intro x hx
    simp only [elem, List.getD_cons_zero] at hx
    obtain ⟨h1, h2, h3, h4⟩ := hx
    rcases lt_or_gt_of_ne hij with h | h
    · have : (i + 1) * c1 ≤ j * c1 := by
        apply mul_le_mul_of_nonneg_right _ (by omega)
        omega
      nlinarith
    · have : (j + 1) * c1 ≤ i * c1 := by
        apply mul_le_mul_of_nonneg_right _ (by omega)
        omega
      nlinarith

/-- Witness of C1: counts `{10, 12}`, start `{2, 4}`, final `{8, 6}`, indices 0 and 1. -/
theorem collapse_spans_disjoint_witness :
    ∃ Si Sj : selector,
      (selector.mk 2 0 [10, 12] [2, 4] [8, 6] [1, 1]).collapse 0 = some Si ∧
      (selector.mk 2 0 [10, 12] [2, 4] [8, 6] [1, 1]).collapse 1 = some Sj ∧
      Si.rank = 1 ∧ Sj.rank = 1 ∧
      Si.size = elem (selector.mk 2 0 [10, 12] [2, 4] [8, 6] [1, 1]).shape 1 ∧
      Sj.size = elem (selector.mk 2 0 [10, 12] [2, 4] [8, 6] [1, 1]).shape 1 ∧
      elem (selector.mk 2 0 [10, 12] [2, 4] [8, 6] [1, 1]).shape 1 = 6 - 4 ∧
      ∀ x : Int, ¬ (elem Si.start 0 ≤ x ∧ x < elem Si.final 0 ∧
                    elem Sj.start 0 ≤ x ∧ x < elem Sj.final 0) :=
  collapse_spans_disjoint 10 12 2 4 8 6 0 1 (by decide) (by decide) (by decide) (by decide)
    (by decide) (by decide)


/-- C2, as stated, fails on the selector of the collapse test: counts `{10, 12}`,
start `{2, 4}`, final `{8, 6}` (so `0 <= start[n] <= final[n] <= count[n]`) and `i = 0`
(so `0 <= i < shape()[0] = 6`).  `collapse(0)` has start 24 and final 26, which the test
at lines 301-322 requires, whereas the row-major offsets `(start[0] + i) * count[1] + c`
of the claim are 28 and 30. -/
theorem collapse_row_major_counterexample :
    (selector.mk 2 0 [10, 12] [2, 4] [8, 6] [1, 1]).collapse 0
        = some (selector.mk 1 0 [120] [24] [26] [1]) ∧
    elem (selector.mk 2 0 [10, 12] [2, 4] [8, 6] [1, 1]).shape 0 = 6 ∧
    ¬ (∃ T : selector,
        (selector.mk 2 0 [10, 12] [2, 4] [8, 6] [1, 1]).collapse 0 = some T ∧
        elem T.start 0 = (2 + 0) * 12 + 4 ∧ elem T.final 0 = (2 + 0) * 12 + 6) := by
  refine ⟨by decide, by decide, ?_⟩
  rintro ⟨T, hT, h1, -⟩
  rw [collapse_rank2] at hT
  cases hT
  revert h1
  decide

/-- C2, amended: for a rank-2 unit-skip selector with `0 <= start[n] <= final[n] <= count[n]`
and `0 <= i < shape()[0]`, `collapse(i)` has
`start[0] = count[0] * start[0] + i * count[1] + start[1]` and
`final[0] = count[0] * start[0] + i * count[1] + final[1]`; these are the row-major offsets
`(start[0] + i) * count[1] + start[1]` and `(start[0] + i) * count[1] + final[1]` exactly
when `start[0] = 0` or `count[0] = count[1]`. -/
theorem collapse_flat_range (c0 c1 s0 s1 f0 f1 i : Int)
    (_h0 : 0 ≤ s0 ∧ s0 ≤ f0 ∧ f0 ≤ c0) (_h1 : 0 ≤ s1 ∧ s1 ≤ f1 ∧ f1 ≤ c1)
    (_hi : 0 ≤ i ∧ i < elem (selector.mk 2 0 [c0, c1] [s0, s1] [f0, f1] [1, 1]).shape 0) :
    ∃ T : selector,
      (selector.mk 2 0 [c0, c1] [s0, s1] [f0, f1] [1, 1]).collapse i = some T ∧
      T.rank = 1 ∧ T.count = [c0 * c1] ∧
      elem T.start 0 = c0 * s0 + i * c1 + s1 ∧
      elem T.final 0 = c0 * s0 + i * c1 + f1 ∧
      ((elem T.start 0 = (s0 + i) * c1 + s1 ∧ elem T.final 0 = (s0 + i) * c1 + f1)
        ↔ (s0 = 0 ∨ c0 = c1)) := by
  refine ⟨_, collapse_rank2 c0 c1 s0 s1 f0 f1 i, rfl, rfl, ?_, ?_, ?_⟩
  · simp only [elem, List.getD_cons_zero]; ring
  · simp only [elem, List.getD_cons_zero]; ring
  · simp only [elem, List.getD_cons_zero]
    constructor
    · rintro ⟨h, -⟩
      have h2 : s0 * (c0 - c1) = 0 := by linear_combination h
      rcases mul_eq_zero.mp h2 with h3 | h3
      · exact Or.inl h3
      · exact Or.inr (by omega)
    · rintro (h | h)
      · subst h; constructor <;> ring
      · subst h; constructor <;> ring

/-- Witness of the amended C2: counts `{10, 12}`, start `{0, 4}`, final `{8, 6}`, `i = 1`. -/
theorem collapse_flat_range_witness :
    ∃ T : selector,
      (selector.mk 2 0 [10, 12] [0, 4] [8, 6] [1, 1]).collapse 1 = some T ∧
      T.rank = 1 ∧ T.count = [10 * 12] ∧
      elem T.start 0 = 10 * 0 + 1 * 12 + 4 ∧
      elem T.final 0 = 10 * 0 + 1 * 12 + 6 ∧
      ((elem T.start 0 = (0 + 1) * 12 + 4 ∧ elem T.final 0 = (0 + 1) * 12 + 6)
        ↔ ((0 : Int) = 0 ∨ (10 : Int) = 12)) :=
  collapse_flat_range 10 12 0 4 8 6 1 (by decide) (by decide) (by decide)

/-- C3 at the selector of the rank-3 collapse test, counts `{10, 12, 14}`, full range, unit
skips, collapsed on axis 0 at index 0: the second loop of `collapse` stores `final[2] = 14`
as the skip of the last axis, so the result has shape `{12, 1}` and size 12, while the
product of `shape()[n]` over the axes `n != 0` is `12 * 14`. -/
theorem collapse_rank3_size :
    ((selector.mk 3 0 [10, 12, 14] [0, 0, 0] [10, 12, 14] [1, 1, 1]).on_ 0).collapse 0
        = some (selector.mk 2 0 [120, 14] [0, 0] [12, 14] [1, 14]) ∧
    (selector.mk 2 0 [120, 14] [0, 0] [12, 14] [1, 14]).shape = [12, 1] ∧
    (selector.mk 2 0 [120, 14] [0, 0] [12, 14] [1, 14]).size = 12 ∧
    (selector.mk 3 0 [10, 12, 14] [0, 0, 0] [10, 12, 14] [1, 1, 1]).shape = [10, 12, 14] ∧
    (12 : Int) ≠ 12 * 14 := by
  decide

end Old

namespace Hpp

/-- The view built by the extents constructor: it does not depend on the contents of the
heap, only on the number of buffers already allocated. -/
lemma of_dims_view {α : Type} (zero : α) (h : Heap α) (dims : List Int) :
    (ndarray.of_dims zero h dims).2
      = ndarray.mk dims.length 0 dims (ndarray.constant_array dims.length 0) dims
          (ndarray.constant_array dims.length 1) (ndarray.compute_strides dims.length dims)
          h.length := rfl

/-- The heap after the extents constructor: one more buffer, filled with the initial value. -/
lemma of_dims_heap {α : Type} (zero : α) (h : Heap α) (dims : List Int) :
    (ndarray.of_dims zero h dims).1 = h ++ [List.replicate (product dims).toNat zero] := rfl

/-- C4 at `A = ndarray<2>(2, 2)`, `i = 1`, `j = 0`: `A[1]` is the rank-1 view with
start 1 and final 2, its coordinate 0 has flat offset 1, while `A(1, 0)` has flat offset 2.
A value written through `A[1]` at 0 is then read by `A(0, 1)`, and `A(1, 0)` still reads
the initial value. -/
theorem index_row_offset_rank2 {α : Type} (zero v : α) :
    ((ndarray.of_dims zero [] [2, 2]).2.index 1)
        = some (ndarray.mk 1 0 [4] [1] [2] [1] [1] 0) ∧
    (ndarray.mk 1 0 [4] [1] [2] [1] [1] 0).shape = [1] ∧
    (ndarray.mk 1 0 [4] [1] [2] [1] [1] 0).offset [0] = 1 ∧
    (ndarray.of_dims zero [] [2, 2]).2.offset [1, 0] = 2 ∧
    ∃ h : Heap α,
      ndarray.put (ndarray.of_dims zero [] [2, 2]).1
        (ndarray.mk 1 0 [4] [1] [2] [1] [1] 0) [0] v = some h ∧
      ndarray.get h (ndarray.of_dims zero [] [2, 2]).2 [1, 0] = some zero ∧
      ndarray.get h (ndarray.of_dims zero [] [2, 2]).2 [0, 1] = some v := by
  have hv : (ndarray.of_dims zero ([] : Heap α) [2, 2]).2
      = ndarray.mk 2 0 [2, 2] [0, 0] [2, 2] [1, 1] [2, 1] 0 := rfl
  have hh : (ndarray.of_dims zero ([] : Heap α) [2, 2]).1 = [[zero, zero, zero, zero]] := rfl
  rw [hv, hh]
  have e1 : (ndarray.mk 1 0 [4] [1] [2] [1] [1] 0).offset [0] = 1 := by decide
  have e2 : (ndarray.mk 2 0 [2, 2] [0, 0] [2, 2] [1, 1] [2, 1] 0).offset [1, 0] = 2 := by decide
  have e3 : (ndarray.mk 2 0 [2, 2] [0, 0] [2, 2] [1, 1] [2, 1] 0).offset [0, 1] = 1 := by decide
  refine ⟨by decide, by decide, e1, e2, [[zero, v, zero, zero]], ?_, ?_, ?_⟩
  · simp [ndarray.put, e1, Heap.store]
  · simp [ndarray.get, e2, Heap.load]
  · simp [ndarray.get, e3, Heap.load]

/-- C5 at `A = ndarray<3>(10, 30, 2)`, `i = 1`: `A[1]` has start `{1, 0}` and final
`{30, 2}`, hence shape `{29, 2}` and size 58, not `{30, 2}` and 60. -/
theorem index_shape_rank3 {α : Type} (zero : α) :
    ((ndarray.of_dims zero [] [10, 30, 2]).2.index 1)
        = some (ndarray.mk 2 0 [300, 2] [1, 0] [30, 2] [1, 1] [2, 1] 0) ∧
    (ndarray.mk 2 0 [300, 2] [1, 0] [30, 2] [1, 1] [2, 1] 0).shape = [29, 2] ∧
    (ndarray.mk 2 0 [300, 2] [1, 0] [30, 2] [1, 1] [2, 1] 0).size = 58 ∧
    (ndarray.of_dims zero [] [10, 30, 2]).2.shape = [10, 30, 2] := by
  have hv : (ndarray.of_dims zero ([] : Heap α) [10, 30, 2]).2
      = ndarray.mk 3 0 [10, 30, 2] [0, 0, 0] [10, 30, 2] [1, 1, 1] [60, 2, 1] 0 := rfl
  rw [hv]
  refine ⟨by decide, by decide, by decide, by decide⟩

/-- C6 at `A = ndarray<2>(3, 4)` and the range `(1, 2)`: the view `B` over the selector of
`A` narrowed by `within((1, 2))` has start `{1, 0}`, and `B(0, 0)` has flat offset 1,
while `A(1 + 0, 0)` has flat offset 4. -/
theorem within_offset_rank2 {α : Type} (zero : α) :
    ((ndarray.of_dims zero [] [3, 4]).2.make_selector.within (1, 2)).map
        (fun sel => ndarray.of_selector sel (ndarray.of_dims zero [] [3, 4]).2.data)
        = some (ndarray.mk 2 0 [3, 4] [1, 0] [2, 4] [1, 1] [4, 1] 0) ∧
    (ndarray.mk 2 0 [3, 4] [1, 0] [2, 4] [1, 1] [4, 1] 0).shape = [1, 4] ∧
    (ndarray.mk 2 0 [3, 4] [1, 0] [2, 4] [1, 1] [4, 1] 0).offset [0, 0] = 1 ∧
    (ndarray.of_dims zero [] [3, 4]).2.offset [1 + 0, 0] = 4 := by
  have hv : (ndarray.of_dims zero ([] : Heap α) [3, 4]).2
      = ndarray.mk 2 0 [3, 4] [0, 0] [3, 4] [1, 1] [4, 1] 0 := rfl
  rw [hv]
  refine ⟨by decide, by decide, by decide, by decide⟩


/-- One more input element makes `std::partial_sum` write one more value. -/
lemma partial_sum_go_snoc (op : Int → Int → Int) (acc : Int) (l : List Int) (y : Int) :
    partial_sum.go op acc (l ++ [y]) = partial_sum.go op acc l ++ [op (l.foldl op acc) y] := by
  induction l generalizing acc with
  | nil => simp [partial_sum.go]
  | cons x l ih => simp [partial_sum.go, ih]

lemma partial_sum_go_length (op : Int → Int → Int) (acc : Int) (l : List Int) :
    (partial_sum.go op acc l).length = l.length := by
  induction l generalizing acc with
  | nil => simp [partial_sum.go]
  | cons x l ih => simp [partial_sum.go, ih]

/-- The algorithm `std::partial_sum` writes as many values as it reads. -/
lemma partial_sum_length (op : Int → Int → Int) (l : List Int) :
    (partial_sum op l).length = l.length := by
  cases l with
  | nil => simp [partial_sum]
  | cons x l => simp [partial_sum, partial_sum_go_length]

/-- The values written by `compute_strides`, in the order of the reverse iterator. -/
lemma one_cons_partial_sum_snoc (l : List Int) (y : Int) :
    1 :: partial_sum (fun x y => x * y) (l ++ [y])
      = (1 :: partial_sum (fun x y => x * y) l) ++ [l.foldl (fun x y => x * y) 1 * y] := by
  cases l with
  | nil => simp [partial_sum, partial_sum.go]
  | cons x l => simp [partial_sum, partial_sum_go_snoc]

lemma foldl_mul_reverse (l : List Int) (a : Int) :
    l.reverse.foldl (fun x y => x * y) a = a * l.prod := by
  induction l generalizing a with
  | nil => simp
  | cons d l ih => simp [List.foldl_append, ih]; ring

/-- The stride array of the extents `d :: ds` starts with the product of `ds`. -/
lemma strides_cons (d : Int) (ds : List Int) :
    (1 :: partial_sum (fun x y => x * y) (d :: ds).reverse).reverse
      = (d :: ds).prod :: (1 :: partial_sum (fun x y => x * y) ds.reverse).reverse := by
  have e : (d :: ds).reverse = ds.reverse ++ [d] := by simp
  rw [e, one_cons_partial_sum_snoc, List.reverse_append, foldl_mul_reverse]
  simp [mul_comm]

/-- Entry `n` of the written stride array is the product of the extents from `n` on. -/
lemma strides_elem (ds : List Int) (n : Nat) (hn : n ≤ ds.length) :
    elem (1 :: partial_sum (fun x y => x * y) ds.reverse).reverse n = (ds.drop n).prod := by
  induction ds generalizing n with
  | nil =>
    have : n = 0 := by simpa using hn
    subst this
    simp [partial_sum]
  | cons d ds ih =>
    rw [strides_cons]
    cases n with
    | zero => simp
    | succ n =>
      have hn2 : n ≤ ds.length := by simpa using hn
      simpa using ih n hn2

/-- The strides computed by `compute_strides` are the row-major multipliers. -/
lemma compute_strides_elem (dims : List Int) (n : Nat) (hn : n < dims.length) :
    elem (ndarray.compute_strides dims.length dims) n = (dims.drop (n + 1)).prod := by
  cases dims with
  | nil => simp at hn
  | cons d ds =>
    have h1 : (d :: ds).reverse.dropLast = ds.reverse := by simp
    have hn2 : n ≤ ds.length := by
      have : n < ds.length + 1 := by simpa using hn
      omega
    simp only [ndarray.compute_strides, h1, List.length_cons, Nat.succ_ne_zero, if_false]
    rw [strides_elem ds n hn2]
    simp

/-- The loop of `offset` adds up the per-axis terms. -/
lemma foldl_add_range (g : Nat → Int) (a : Int) (R : Nat) :
    (List.range R).foldl (fun m n => m + g n) a = a + ((List.range R).map g).sum := by
  induction R with
  | zero => simp
  | succ R ih => simp [List.range_succ, List.foldl_append, ih, add_assoc]

/-- C7: for a freshly constructed array of rank `R >= 1` with extents `d`, `strides[n]` is
the product of `d[m]` over `m > n` (so `strides[R - 1] = 1`), and the flat offset computed
for a coordinate `idx` is the row-major index, the sum over `n` of `idx[n]` times the
product of `d[m]` over `m > n`. -/
theorem fresh_strides_row_major {α : Type} (zero : α) (h : Heap α) (d : List Int)
    (hR : 1 ≤ d.length) :
    (ndarray.of_dims zero h d).2.rank = d.length ∧
    (ndarray.of_dims zero h d).2.strides.length = d.length ∧
    (∀ n, n < d.length →
      elem (ndarray.of_dims zero h d).2.strides n = (d.drop (n + 1)).prod) ∧
    elem (ndarray.of_dims zero h d).2.strides (d.length - 1) = 1 ∧
    ∀ idx : List Int,
      (ndarray.of_dims zero h d).2.offset idx
        = ((List.range d.length).map (fun n => elem idx n * (d.drop (n + 1)).prod)).sum := by
  rw [of_dims_view]
  refine ⟨rfl, ?_, fun n hn => compute_strides_elem d n hn, ?_, ?_⟩
  · cases d with
    | nil => simp at hR
    | cons x xs => simp [ndarray.compute_strides, partial_sum_length]
  · have := compute_strides_elem d (d.length - 1) (by omega)
    simp only [this]
    have : d.length - 1 + 1 = d.length := by omega
    simp [this]
  · intro idx
    simp only [ndarray.offset, foldl_add_range, zero_add]
    congr 1
    apply List.map_congr_left
    intro n hn
    have hn2 : n < d.length := List.mem_range.mp hn
    rw [compute_strides_elem d n hn2]
    simp [ndarray.constant_array, elem, List.getD_eq_getElem?_getD, hn2]

/-- Witness of C7: the array `ndarray<3>(2, 3, 4)` has strides `{12, 4, 1}`. -/
theorem fresh_strides_row_major_witness :
    1 ≤ [(2 : Int), 3, 4].length ∧
    (ndarray.of_dims (0 : Int) [] [2, 3, 4]).2.strides = [12, 4, 1] ∧
    ((ndarray.of_dims (0 : Int) [] [2, 3, 4]).2.rank = [(2 : Int), 3, 4].length ∧
    (ndarray.of_dims (0 : Int) [] [2, 3, 4]).2.strides.length = [(2 : Int), 3, 4].length ∧
    (∀ n, n < [(2 : Int), 3, 4].length →
      elem (ndarray.of_dims (0 : Int) [] [2, 3, 4]).2.strides n
        = (([2, 3, 4] : List Int).drop (n + 1)).prod) ∧
    elem (ndarray.of_dims (0 : Int) [] [2, 3, 4]).2.strides ([(2 : Int), 3, 4].length - 1) = 1 ∧
    ∀ idx : List Int,
      (ndarray.of_dims (0 : Int) [] [2, 3, 4]).2.offset idx
        = ((List.range [(2 : Int), 3, 4].length).map
            (fun n => elem idx n * (([2, 3, 4] : List Int).drop (n + 1)).prod)).sum) :=
  ⟨by decide, by decide, fresh_strides_row_major (0 : Int) [] [2, 3, 4] (by decide)⟩

end Hpp

namespace Old

open selector

/-- The loop of `next` on a selector with one more leading axis: it runs like the loop on
the trailing axes, and when that one is exhausted it resets them and carries into axis 0. -/
lemma next_loop_cons (S S' : selector) (s f k : Int)
    (hs : S'.start = s :: S.start) (hf : S'.final = f :: S.final)
    (hk : S'.skips = k :: S.skips) (i : Int) :
    ∀ (n : Nat) (idx : List Int), n < idx.length → n < S.start.length →
      next_loop S' (n + 1) (i :: idx) =
        if (next_loop S n idx).1 then (true, i :: (next_loop S n idx).2)
        else if i + k = f then (false, f :: S.final)
        else (true, (i + k) :: (S.start.take (n + 1) ++ idx.drop (n + 1))) := by
  intro n
  induction n with
  | zero =>
    intro idx h1 h2
    obtain ⟨x, xs, rfl⟩ : ∃ x xs, idx = x :: xs := by
      cases idx with
      | nil => simp at h1
      | cons x xs => exact ⟨x, xs, rfl⟩
    obtain ⟨y, ys, hy⟩ : ∃ y ys, S.start = y :: ys := by
      cases hS : S.start with
      | nil => simp [hS] at h2
      | cons y ys => exact ⟨y, ys, rfl⟩
    simp only [next_loop, hs, hf, hk, hy, elem, List.getD_cons_succ, List.getD_cons_zero,
      List.set_cons_succ, List.set_cons_zero]
    by_cases h : x = S.final.getD 0 0
    · rw [if_pos h, if_pos h]; simp
    · rw [if_neg h, if_neg h]; simp
  | succ n ih =>
    intro idx h1 h2
    rw [next_loop]
    conv_rhs => rw [next_loop]
    simp only [hs, hf, hk, elem, List.getD_cons_succ, List.set_cons_succ]
    by_cases h : idx.getD (n + 1) 0 = S.final.getD (n + 1) 0
    · rw [if_pos h, if_pos h]
      have hlen : n < ((idx.set (n + 1) (S.start.getD (n + 1) 0)).set n
          ((idx.set (n + 1) (S.start.getD (n + 1) 0)).getD n 0 + S.skips.getD n 0)).length := by
        simp; omega
      have := ih _ hlen (by omega)
      simp only [hs, hf, hk, elem, List.getD_cons_succ, List.set_cons_succ] at this
      rw [this]
      have e : S.start.take (n + 1) ++ List.drop (n + 1)
          ((idx.set (n + 1) (S.start.getD (n + 1) 0)).set n
            ((idx.set (n + 1) (S.start.getD (n + 1) 0)).getD n 0 + S.skips.getD n 0))
          = S.start.take (n + 1 + 1) ++ idx.drop (n + 1 + 1) := by
        rw [List.drop_set_of_lt _ _ (by omega : n < n + 1)]
        rw [List.drop_set, if_neg (by omega)]
        have e2 : S.start.take (n + 1 + 1) = S.start.take (n + 1) ++ [S.start[n + 1]] := by
          rw [List.take_succ, List.getElem?_eq_getElem h2]; rfl
        rw [List.drop_eq_getElem_cons h1, Nat.sub_self, List.set_cons_zero, e2,
          List.getD_eq_getElem _ _ h2, List.append_assoc]
        rfl
      rw [e]
    · rw [if_neg h, if_neg h]; simp


/-- The member `next` on a selector with one more leading axis. -/
lemma next_cons {S' S : selector} {s f k : Int} (h : IsCons S' S s f k) (hpos : 1 ≤ S.rank)
    (hsl : S.start.length = S.rank) (i : Int) (idx : List Int) (hidx : idx.length = S.rank) :
    S'.next (i :: idx) =
      if (S.next idx).1 then (true, i :: (S.next idx).2)
      else if i + k = f then (false, f :: S.final)
      else (true, (i + k) :: S.start) := by
  obtain ⟨m, hm⟩ : ∃ m, S.rank = m + 1 := ⟨S.rank - 1, by omega⟩
  have h1 := next_loop_cons S S' s f k h.start h.final h.skips i m
    (idx.set m (elem idx m + elem S.skips m)) (by simp; omega) (by omega)
  simp only [next, h.rank, hm, Nat.add_sub_cancel, h.skips, elem, List.getD_cons_succ,
    List.set_cons_succ]
  simp only [elem] at h1
  rw [h1]
  have e1 : S.start.take (m + 1) = S.start := List.take_of_length_le (by omega)
  have e2 : (idx.set m (idx.getD m 0 + S.skips.getD m 0)).drop (m + 1) = [] :=
    List.drop_of_length_le (by simp; omega)
  rw [e1, e2, List.append_nil]

/-- The member `next` on a rank-1 selector. -/
lemma next_single {S : selector} {f k : Int} (hr : S.rank = 1) (hf : S.final = [f])
    (hk : S.skips = [k]) (i : Int) :
    S.next [i] = if i + k = f then (false, [f]) else (true, [i + k]) := by
  simp [next, hr, next_loop, hf, hk]

lemma elem_range_map (g : Nat → Int) (r n : Nat) (hn : n < r) :
    elem ((List.range r).map g) n = g n := by
  simp [elem, List.getD_eq_getElem?_getD, hn]

/-- The shape of a selector with one more leading axis. -/
lemma shape_cons {S' S : selector} {s f k : Int} (h : IsCons S' S s f k) :
    S'.shape = (f - s).tdiv k :: S.shape := by
  simp only [shape, h.rank, List.range_succ_eq_map, List.map_cons, List.map_map, h.start,
    h.final, h.skips, elem, List.getD_cons_zero]
  congr 1

/-- The coordinates of a selector with one more leading axis: for each value of axis 0 in
turn, all the coordinates of the trailing axes. -/
lemma coordinates_cons {S' S : selector} {s f k : Int} (h : IsCons S' S s f k) :
    S'.coordinates =
      ((List.range ((f - s).tdiv k).toNat).map (fun (j : Nat) => s + (j : Int) * k)).flatMap
        (fun v => S.coordinates.map (fun c => v :: c)) := by
  have e : (List.range S'.rank).map S'.axis_values
      = ((List.range ((f - s).tdiv k).toNat).map (fun (j : Nat) => s + (j : Int) * k))
          :: (List.range S.rank).map S.axis_values := by
    simp only [h.rank, List.range_succ_eq_map, List.map_cons, List.map_map]
    congr 1
    · simp [axis_values, shape_cons h, h.start, h.skips]
    · apply List.map_congr_left
      intro n _
      simp [axis_values, shape_cons h, h.start, h.skips]
  simp only [coordinates, e, row_major]


lemma axis_list_succ (s k : Int) (m : Nat) :
    (List.range (m + 1)).map (fun (j : Nat) => s + (j : Int) * k)
      = s :: (List.range m).map (fun (j : Nat) => (s + k) + (j : Int) * k) := by
  rw [List.range_succ_eq_map, List.map_cons, List.map_map]
  congr 1
  · simp
  · apply List.map_congr_left
    intro j _
    simp only [Function.comp, Nat.succ_eq_add_one, Nat.cast_add, Nat.cast_one]
    ring

/-- The number of coordinates on an axis whose skip divides its extent. -/
lemma axis_count {s f k : Int} (hk : 0 < k) (hsf : s < f) (hd : k ∣ f - s) :
    1 ≤ ((f - s).tdiv k).toNat ∧ s + (((f - s).tdiv k).toNat : Int) * k = f := by
  obtain ⟨q, hq⟩ := hd
  have hq0 : 0 < q := by
    by_contra hc
    have : k * q ≤ 0 := mul_nonpos_of_nonneg_of_nonpos hk.le (by omega)
    omega
  have e : (f - s).tdiv k = q := by
    rw [Int.tdiv_eq_ediv (by omega) hk.le, hq, Int.mul_ediv_cancel_left _ hk.ne.symm]
  rw [e]
  have e2 : ((q.toNat : Nat) : Int) = q := Int.toNat_of_nonneg hq0.le
  refine ⟨by omega, ?_⟩
  rw [e2]
  linarith [mul_comm k q]

/-- Blocks of coordinates, one per value of the leading axis, chain up when each block
chains and the last coordinate of a block steps to the first of the next block. -/
lemma chain_blocks (R : List Int → List Int → Prop) (T : List (List Int)) (t0 tl : List Int)
    (hT0 : T.head? = some t0) (hTl : T.getLast? = some tl) (k f : Int) (hk : 0 < k)
    (ha : ∀ v, List.Chain' R (T.map (fun c => v :: c)))
    (hb : ∀ v, v + k ≠ f → R (v :: tl) ((v + k) :: t0)) :
    ∀ (m : Nat) (s : Int), s + (m : Int) * k = f →
      List.Chain' R (((List.range m).map (fun (j : Nat) => s + (j : Int) * k)).flatMap
        (fun v => T.map (fun c => v :: c))) ∧
      (1 ≤ m →
        (((List.range m).map (fun (j : Nat) => s + (j : Int) * k)).flatMap
          (fun v => T.map (fun c => v :: c))).head? = some (s :: t0) ∧
        (((List.range m).map (fun (j : Nat) => s + (j : Int) * k)).flatMap
          (fun v => T.map (fun c => v :: c))).getLast? = some ((f - k) :: tl)) := by
  intro m
  induction m with
  | zero => intro s _; simp
  | succ m ih =>
    intro s hs
    have hs2 : (s + k) + (m : Int) * k = f := by push_cast at hs; linarith
    obtain ⟨ih1, ih2⟩ := ih (s + k) hs2
    rw [axis_list_succ, List.flatMap_cons]
    have hl : (T.map (fun c => s :: c)).getLast? = some (s :: tl) := by
      rw [List.getLast?_map, hTl]; rfl
    have hh : (T.map (fun c => s :: c)).head? = some (s :: t0) := by
      rw [List.head?_map, hT0]; rfl
    refine ⟨List.chain'_append.mpr ⟨ha s, ih1, ?_⟩, fun _ => ⟨?_, ?_⟩⟩
    · intro x hx y hy
      rw [hl] at hx
      cases hx
      rcases Nat.eq_zero_or_pos m with h0 | h0
      · subst h0; simp at hy
      · rw [(ih2 h0).1] at hy
        cases hy
        apply hb
        have : (1 : Int) ≤ (m : Int) := by exact_mod_cast h0
        nlinarith
    · rw [List.head?_append, hh]; rfl
    · rw [List.getLast?_append]
      rcases Nat.eq_zero_or_pos m with h0 | h0
      · subst h0
        have : f - k = s := by simp at hs; omega
        simp [hl, this]
      · rw [(ih2 h0).2]; rfl


/-- The hypotheses of the enumeration on every axis: a positive skip that divides the
non-empty extent. -/
lemma axes_tail {S' S : selector} {s f k : Int} (h : IsCons S' S s f k)
    (hax : ∀ n, n < S'.rank → 0 < elem S'.skips n ∧ elem S'.start n < elem S'.final n ∧
      elem S'.skips n ∣ elem S'.final n - elem S'.start n) :
    (0 < k ∧ s < f ∧ k ∣ f - s) ∧
    ∀ n, n < S.rank → 0 < elem S.skips n ∧ elem S.start n < elem S.final n ∧
      elem S.skips n ∣ elem S.final n - elem S.start n := by
  constructor
  · have := hax 0 (by rw [h.rank]; omega)
    simpa [h.start, h.final, h.skips] using this
  · intro n hn
    have := hax (n + 1) (by rw [h.rank]; omega)
    simpa [h.start, h.final, h.skips] using this

/-- The enumeration invariant: the coordinates start at `start`, each one steps to the
following one by `next`, and `next` returns `false` at the last one, leaving `final`. -/
lemma enumeration_chain : ∀ (r : Nat) (S : selector), S.rank = r + 1 →
    S.start.length = S.rank → S.final.length = S.rank → S.skips.length = S.rank →
    (∀ n, n < S.rank → 0 < elem S.skips n ∧ elem S.start n < elem S.final n ∧
      elem S.skips n ∣ elem S.final n - elem S.start n) →
    S.coordinates.head? = some S.start ∧
    List.Chain' (Step S) S.coordinates ∧
    (∃ tl, S.coordinates.getLast? = some tl ∧ tl.length = S.rank ∧
      S.next tl = (false, S.final)) ∧
    (∀ c ∈ S.coordinates, c.length = S.rank) := by
  intro r
  induction r with
  | zero =>
    intro S hr hs hf hk hax
    obtain ⟨s, hs'⟩ : ∃ s, S.start = [s] := List.length_eq_one.mp (by omega)
    obtain ⟨f, hf'⟩ : ∃ f, S.final = [f] := List.length_eq_one.mp (by omega)
    obtain ⟨k, hk'⟩ : ∃ k, S.skips = [k] := List.length_eq_one.mp (by omega)
    have hc : IsCons S (selector.mk 0 S.axis [] [] [] []) s f k := ⟨by simpa using hr, hs', hf', hk'⟩
    obtain ⟨⟨hk0, hsf, hd⟩, -⟩ := axes_tail hc hax
    obtain ⟨hm1, hm2⟩ := axis_count hk0 hsf hd
    have hT : (selector.mk 0 S.axis [] [] [] []).coordinates = [[]] := rfl
    have hcoord := coordinates_cons hc
    rw [hT] at hcoord
    have hb : ∀ v, v + k ≠ f → Step S [v] [v + k] := by
      intro v hv
      refine ⟨by simp [hr], ?_⟩
      rw [next_single (by simpa using hr) hf' hk', if_neg hv]
    obtain ⟨c1, c2⟩ := chain_blocks (Step S) [[]] [] [] rfl rfl k f hk0
      (fun v => by simp) hb _ s hm2
    obtain ⟨c3, c4⟩ := c2 hm1
    rw [← hcoord] at c1 c3 c4
    refine ⟨by rw [c3, hs'], c1, ⟨_, c4, by simp [hr], ?_⟩, ?_⟩
    · rw [next_single (by simpa using hr) hf' hk', if_pos (by ring), hf']
    · intro c hcm
      rw [hcoord] at hcm
      simp only [List.mem_flatMap, List.mem_map, List.mem_singleton] at hcm
      obtain ⟨v, -, c', rfl, rfl⟩ := hcm
      simp [hr]
  | succ r ih =>
    intro S hr hs hf hk hax
    obtain ⟨s, ss, hs'⟩ : ∃ s ss, S.start = s :: ss := by
      cases h : S.start with
      | nil => rw [h] at hs; simp at hs; omega
      | cons s ss => exact ⟨s, ss, rfl⟩
    obtain ⟨f, fs, hf'⟩ : ∃ f fs, S.final = f :: fs := by
      cases h : S.final with
      | nil => rw [h] at hf; simp at hf; omega
      | cons f fs => exact ⟨f, fs, rfl⟩
    obtain ⟨k, ks, hk'⟩ : ∃ k ks, S.skips = k :: ks := by
      cases h : S.skips with
      | nil => rw [h] at hk; simp at hk; omega
      | cons k ks => exact ⟨k, ks, rfl⟩
    have hc : IsCons S (selector.mk (r + 1) S.axis S.count.tail ss fs ks) s f k :=
      ⟨by simpa using hr, hs', hf', hk'⟩
    obtain ⟨⟨hk0, hsf, hd⟩, haxT⟩ := axes_tail hc hax
    obtain ⟨hm1, hm2⟩ := axis_count hk0 hsf hd
    have hsl : ss.length = r + 1 := by rw [hs'] at hs; simp at hs; omega
    have hfl : fs.length = r + 1 := by rw [hf'] at hf; simp at hf; omega
    have hkl : ks.length = r + 1 := by rw [hk'] at hk; simp at hk; omega
    obtain ⟨t1, t2, ⟨tl, t3, t4, t5⟩, t6⟩ :=
      ih (selector.mk (r + 1) S.axis S.count.tail ss fs ks) rfl hsl hfl hkl haxT
    have hcoord := coordinates_cons hc
    have ha : ∀ v, List.Chain' (Step S)
        ((selector.mk (r + 1) S.axis S.count.tail ss fs ks).coordinates.map (fun c => v :: c)) := by
      intro v
      rw [List.chain'_map]
      refine t2.imp ?_
      rintro a b ⟨hab1, hab2⟩
      refine ⟨by simp [hab1, hr], ?_⟩
      rw [next_cons hc (by simp) hsl v a hab1, hab2]
      simp
    have hb : ∀ v, v + k ≠ f → Step S (v :: tl) ((v + k) :: ss) := by
      intro v hv
      refine ⟨by simp [t4, hr], ?_⟩
      rw [next_cons hc (by simp) hsl v tl t4, t5]
      simp [hv]
    obtain ⟨c1, c2⟩ := chain_blocks (Step S) _ _ _ t1 t3 k f hk0 ha hb _ s hm2
    obtain ⟨c3, c4⟩ := c2 hm1
    rw [← hcoord] at c1 c3 c4
    refine ⟨by rw [c3, hs'], c1, ⟨_, c4, by simp [t4, hr], ?_⟩, ?_⟩
    · rw [next_cons hc (by simp) hsl _ tl t4, t5]
      simp [hf']
    · intro c hcm
      rw [hcoord] at hcm
      simp only [List.mem_flatMap, List.mem_map] at hcm
      obtain ⟨v, -, c', hc', rfl⟩ := hcm
      simp [t6 c' hc', hr]

/-- A chain of steps that ends where `next` returns `false` is what the `do`-`while` loop
visits, given at least as much fuel as coordinates. -/
lemma walk_of_chain (S : selector) (fin : List Int) :
    ∀ (L : List (List Int)) (c : List Int) (fuel : Nat),
      List.Chain' (Step S) (c :: L) →
      (∃ tl, (c :: L).getLast? = some tl ∧ S.next tl = (false, fin)) →
      L.length + 1 ≤ fuel → S.walk fuel c = some (c :: L) := by
  intro L
  induction L with
  | nil =>
    intro c fuel _ hl hfuel
    obtain ⟨tl, h1, h2⟩ := hl
    simp at h1
    subst h1
    obtain ⟨g, rfl⟩ : ∃ g, fuel = g + 1 := ⟨fuel - 1, by omega⟩
    simp [walk, h2]
  | cons d L ih =>
    intro c fuel hch hl hfuel
    obtain ⟨g, rfl⟩ : ∃ g, fuel = g + 1 := ⟨fuel - 1, by omega⟩
    rw [List.chain'_cons] at hch
    obtain ⟨⟨-, hcd⟩, hrest⟩ := hch
    have hl2 : ∃ tl, (d :: L).getLast? = some tl ∧ S.next tl = (false, fin) := by
      obtain ⟨tl, h1, h2⟩ := hl
      exact ⟨tl, by rwa [List.getLast?_cons_cons] at h1, h2⟩
    have := ih d g hrest hl2 (by simp at hfuel; omega)
    simp [walk, hcd, this]


lemma length_row_major (vss : List (List Int)) :
    (row_major vss).length = (vss.map List.length).prod := by
  induction vss with
  | nil => simp [row_major]
  | cons vs rest ih =>
    simp only [row_major, List.length_flatMap, List.map_cons, List.prod_cons]
    have : (List.length ∘ fun v => (row_major rest).map (fun c => v :: c))
        = fun _ => (rest.map List.length).prod := by
      funext v; simp [ih]
    rw [this]
    simp

lemma mem_row_major (vss : List (List Int)) (c : List Int) :
    c ∈ row_major vss ↔ List.Forall₂ (fun x vs => x ∈ vs) c vss := by
  induction vss generalizing c with
  | nil => simp [row_major]
  | cons vs rest ih =>
    simp only [row_major, List.mem_flatMap, List.mem_map]
    constructor
    · rintro ⟨v, hv, c', hc', rfl⟩
      exact List.Forall₂.cons hv ((ih c').mp hc')
    · intro h
      cases h with
      | cons hv hrest => exact ⟨_, hv, _, (ih _).mpr hrest, rfl⟩

lemma pairwise_row_major (vss : List (List Int))
    (h : ∀ vs ∈ vss, vs.Pairwise (fun a b => a < b)) :
    (row_major vss).Pairwise (List.Lex (fun a b : Int => a < b)) := by
  induction vss with
  | nil => simp [row_major]
  | cons vs rest ih =>
    have ih2 := ih (fun ws hws => h ws (List.mem_cons_of_mem _ hws))
    simp only [row_major]
    rw [List.pairwise_flatMap]
    constructor
    · intro v _
      rw [List.pairwise_map]
      exact ih2.imp (fun hab => List.Lex.cons hab)
    · refine (h vs (List.mem_cons_self _ _)).imp ?_
      intro a b hab x hx y hy
      simp only [List.mem_map] at hx hy
      obtain ⟨x', -, rfl⟩ := hx
      obtain ⟨y', -, rfl⟩ := hy
      exact List.Lex.rel hab

/-- No coordinate is lexicographically below itself. -/
lemma lex_irrefl (l : List Int) : ¬ List.Lex (fun a b : Int => a < b) l l := by
  induction l with
  | nil => intro h; cases h
  | cons a l ih =>
    intro h
    cases h with
    | cons h1 => exact ih h1
    | rel h1 => exact lt_irrefl a h1

/-- Entry `n` of `shape()` for an axis within the rank. -/
lemma elem_shape (S : selector) (n : Nat) (hn : n < S.rank) :
    elem S.shape n = (elem S.final n - elem S.start n).tdiv (elem S.skips n) :=
  elem_range_map _ _ _ hn

lemma mem_axis_values (S : selector) (n : Nat) (x : Int) (h0 : 0 ≤ elem S.shape n) :
    x ∈ S.axis_values n ↔
      ∃ j : Nat, (j : Int) < elem S.shape n ∧ x = elem S.start n + (j : Int) * elem S.skips n := by
  simp only [axis_values, List.mem_map, List.mem_range]
  constructor
  · rintro ⟨j, hj, rfl⟩
    exact ⟨j, by omega, rfl⟩
  · rintro ⟨j, hj, rfl⟩
    exact ⟨j, by omega, rfl⟩

lemma pairwise_axis_values (S : selector) (n : Nat) (hk : 0 < elem S.skips n) :
    (S.axis_values n).Pairwise (fun a b => a < b) := by
  simp only [axis_values]
  rw [List.pairwise_map]
  refine (List.pairwise_lt_range _).imp ?_
  intro a b hab
  have : (a : Int) < (b : Int) := by exact_mod_cast hab
  nlinarith

/-- The member `size()` is the product of `shape()`. -/
lemma size_eq_prod (S : selector) : S.size = S.shape.prod := by
  simp [size, product, List.prod_eq_foldl]

lemma shape_nonneg (S : selector) (n : Nat) (hn : n < S.rank)
    (hk : 0 < elem S.skips n) (hsf : elem S.start n ≤ elem S.final n) : 0 ≤ elem S.shape n := by
  rw [elem_shape S n hn]
  exact Int.tdiv_nonneg (by omega) hk.le

/-- The enumeration has `size()` coordinates. -/
lemma length_coordinates (S : selector)
    (h0 : ∀ n, n < S.rank → 0 ≤ elem S.shape n) :
    (S.coordinates.length : Int) = S.size := by
  rw [size_eq_prod, coordinates, length_row_major, Nat.cast_list_prod]
  have e : S.shape = (List.range S.rank).map (fun n => elem S.shape n) := by
    apply List.ext_getElem
    · simp [shape]
    · intro n h1 h2
      have hn : n < S.rank := by simpa [shape] using h1
      simp [elem, List.getD_eq_getElem?_getD, shape, hn]
  rw [e]
  simp only [List.map_map]
  congr 1
  apply List.map_congr_left
  intro n hn
  have hn' := List.mem_range.mp hn
  have := h0 n hn'
  simp only [Function.comp, axis_values, List.length_map, List.length_range]
  omega

/-- The coordinates of the enumeration, axis by axis. -/
lemma mem_coordinates (S : selector) (h0 : ∀ n, n < S.rank → 0 ≤ elem S.shape n)
    (c : List Int) :
    c ∈ S.coordinates ↔
      c.length = S.rank ∧ ∀ n, n < S.rank → ∃ j : Nat, (j : Int) < elem S.shape n ∧
        elem c n = elem S.start n + (j : Int) * elem S.skips n := by
  rw [coordinates, mem_row_major, List.forall₂_iff_get]
  simp only [List.length_map, List.length_range, List.get_eq_getElem, List.getElem_map,
    List.getElem_range]
  constructor
  · rintro ⟨hl, h⟩
    refine ⟨hl, fun n hn => ?_⟩
    have := h n (by omega) hn
    rw [mem_axis_values S n _ (h0 n hn)] at this
    simpa [elem, List.getD_eq_getElem?_getD, List.getElem?_eq_getElem (by omega : n < c.length)]
      using this
  · rintro ⟨hl, h⟩
    refine ⟨hl, fun n h1 hn => ?_⟩
    rw [mem_axis_values S n _ (h0 n hn)]
    simpa [elem, List.getD_eq_getElem?_getD, List.getElem?_eq_getElem h1] using h n hn


/-- The member `next` does not look at the axis parameter. -/
lemma next_loop_reset (S : selector) (n : Nat) (idx : List Int) :
    S.reset.next_loop n idx = S.next_loop n idx := by
  induction n generalizing idx with
  | zero => simp [next_loop, reset]
  | succ n ih => simp only [next_loop, ih]; simp [reset]

lemma next_reset (S : selector) (idx : List Int) : S.reset.next idx = S.next idx := by
  simp only [next, next_loop_reset]
  simp [reset]

/-- The member `next` returns `false` exactly at the coordinate that is one skip before
`final` on every axis, and it then leaves `final` in the coordinate array. -/
lemma next_false_iff : ∀ (r : Nat) (S : selector), S.rank = r + 1 →
    S.start.length = S.rank → S.final.length = S.rank → S.skips.length = S.rank →
    ∀ idx : List Int, idx.length = S.rank →
      ((S.next idx).1 = false ↔
        ∀ n, n < S.rank → elem idx n = elem S.final n - elem S.skips n) ∧
      ((S.next idx).1 = false → (S.next idx).2 = S.final) := by
  intro r
  induction r with
  | zero =>
    intro S hr hs hf hk idx hidx
    obtain ⟨f, hf'⟩ : ∃ f, S.final = [f] := List.length_eq_one.mp (by omega)
    obtain ⟨k, hk'⟩ : ∃ k, S.skips = [k] := List.length_eq_one.mp (by omega)
    obtain ⟨i, rfl⟩ : ∃ i, idx = [i] := List.length_eq_one.mp (by omega)
    rw [next_single (by simpa using hr) hf' hk']
    have hr1 : S.rank = 1 := by simpa using hr
    by_cases h : i + k = f
    · simp only [if_pos h, true_and, hf', hk', hr1, true_iff, implies_true, and_true]
      intro n hn
      have : n = 0 := by omega
      subst this
      simp; omega
    · simp only [if_neg h, hf', hk', hr1, Bool.true_eq_false, false_iff, false_implies,
        and_true, not_forall]
      exact ⟨0, by omega, by simp; omega⟩
  | succ r ih =>
    intro S hr hs hf hk idx hidx
    obtain ⟨s, ss, hs'⟩ : ∃ s ss, S.start = s :: ss := by
      cases h : S.start with
      | nil => rw [h] at hs; simp at hs; omega
      | cons s ss => exact ⟨s, ss, rfl⟩
    obtain ⟨f, fs, hf'⟩ : ∃ f fs, S.final = f :: fs := by
      cases h : S.final with
      | nil => rw [h] at hf; simp at hf; omega
      | cons f fs => exact ⟨f, fs, rfl⟩
    obtain ⟨k, ks, hk'⟩ : ∃ k ks, S.skips = k :: ks := by
      cases h : S.skips with
      | nil => rw [h] at hk; simp at hk; omega
      | cons k ks => exact ⟨k, ks, rfl⟩
    obtain ⟨i, is, rfl⟩ : ∃ i is, idx = i :: is := by
      cases idx with
      | nil => simp at hidx; omega
      | cons i is => exact ⟨i, is, rfl⟩
    have hc : IsCons S (selector.mk (r + 1) S.axis S.count.tail ss fs ks) s f k :=
      ⟨by simpa using hr, hs', hf', hk'⟩
    have hsl : ss.length = r + 1 := by rw [hs'] at hs; simp at hs; omega
    have hfl : fs.length = r + 1 := by rw [hf'] at hf; simp at hf; omega
    have hkl : ks.length = r + 1 := by rw [hk'] at hk; simp at hk; omega
    have hil : is.length = r + 1 := by simp at hidx; omega
    obtain ⟨t1, t2⟩ := ih (selector.mk (r + 1) S.axis S.count.tail ss fs ks) rfl hsl hfl hkl is hil
    rw [next_cons hc (by simp) hsl i is hil]
    simp only [hf', hk'] at *
    cases hb : ((selector.mk (r + 1) S.axis S.count.tail ss fs ks).next is).1 with
    | true =>
      simp only [if_true, Bool.true_eq_false, false_iff, false_implies, and_true, not_forall]
      rw [hb] at t1
      simp only [Bool.true_eq_false, false_iff, not_forall] at t1
      obtain ⟨n, hn, hne⟩ := t1
      exact ⟨n + 1, by have : n < r + 1 := hn; omega, by simpa using hne⟩
    | false =>
      rw [hb] at t1
      simp only [true_iff] at t1
      simp only [Bool.false_eq_true, if_false]
      by_cases h : i + k = f
      · simp only [if_pos h, true_iff, implies_true, and_true]
        intro n hn
        cases n with
        | zero => simp; omega
        | succ n => simpa using t1 n (by show n < r + 1; omega)
      · simp only [if_neg h, Bool.true_eq_false, false_iff, false_implies, and_true, not_forall]
        exact ⟨0, by omega, by simp; omega⟩

/-- A chain of steps from a cursor to the exhausted cursor is what the `for` loop from that
cursor to `end()` visits, provided no coordinate of the chain equals `final`. -/
lemma range_for_of_chain (S : selector) :
    ∀ (L : List (List Int)) (c : List Int) (fuel : Nat),
      List.Chain' (Step S) (c :: L) →
      (∃ tl, (c :: L).getLast? = some tl ∧ S.next tl = (false, S.final)) →
      (∀ x ∈ c :: L, x ≠ S.final) →
      L.length + 1 ≤ fuel → S.range_for fuel ⟨S.reset, c⟩ = some (c :: L) := by
  have hend : ∀ g, S.range_for g ⟨S.reset, S.final⟩ = some [] := by
    intro g
    cases g <;> simp [range_for, iterator.ne, end_]
  intro L
  induction L with
  | nil =>
    intro c fuel _ hl hne hfuel
    obtain ⟨tl, h1, h2⟩ := hl
    simp at h1
    subst h1
    obtain ⟨g, rfl⟩ : ∃ g, fuel = g + 1 := ⟨fuel - 1, by omega⟩
    have hc : c ≠ S.final := hne c (by simp)
    simp [range_for, iterator.ne, end_, hc, iterator.incr, next_reset, h2, hend]
  | cons d L ih =>
    intro c fuel hch hl hne hfuel
    obtain ⟨g, rfl⟩ : ∃ g, fuel = g + 1 := ⟨fuel - 1, by omega⟩
    rw [List.chain'_cons] at hch
    obtain ⟨⟨-, hcd⟩, hrest⟩ := hch
    have hl2 : ∃ tl, (d :: L).getLast? = some tl ∧ S.next tl = (false, S.final) := by
      obtain ⟨tl, h1, h2⟩ := hl
      exact ⟨tl, by rwa [List.getLast?_cons_cons] at h1, h2⟩
    have := ih d g hrest hl2 (fun x hx => hne x (List.mem_cons_of_mem _ hx))
      (by simp at hfuel; omega)
    have hc : c ≠ S.final := hne c (by simp)
    simp [range_for, iterator.ne, end_, hc, iterator.incr, next_reset, hcd, this]

/-- The loop from `start` visits the list `coordinates`, with any fuel of at least
`size()` calls of `next`. -/
lemma walk_coordinates (S : selector) (h : S.enumerable) :
    S.coordinates.head? = some S.start ∧
    ∀ fuel, S.size.toNat ≤ fuel → S.walk fuel S.start = some S.coordinates := by
  obtain ⟨hR, hs, hf, hk, hax⟩ := h
  have h0 : ∀ n, n < S.rank → 0 ≤ elem S.shape n := fun n hn =>
    shape_nonneg S n hn (hax n hn).1 (hax n hn).2.1.le
  have hlen := length_coordinates S h0
  obtain ⟨r, hr⟩ : ∃ r, S.rank = r + 1 := ⟨S.rank - 1, by omega⟩
  obtain ⟨c1, c2, ⟨tl, c3, -, c5⟩, -⟩ := enumeration_chain r S hr hs hf hk hax
  refine ⟨c1, ?_⟩
  intro fuel hfuel
  cases hco : S.coordinates with
  | nil => rw [hco] at c1; simp at c1
  | cons c L =>
    rw [hco] at c1 c2 c3 hlen
    simp only [List.head?_cons, Option.some.injEq] at c1
    subst c1
    refine walk_of_chain S S.final L _ fuel c2 ⟨tl, c3, c5⟩ ?_
    simp only [List.length_cons] at hlen
    omega

/-- No coordinate of the enumeration is the one-past-end coordinate `final`. -/
lemma coordinate_ne_final (S : selector) (h : S.enumerable) (x : List Int)
    (hx : x ∈ S.coordinates) : x ≠ S.final := by
  obtain ⟨hR, hs, hf, hk, hax⟩ := h
  have h0 : ∀ n, n < S.rank → 0 ≤ elem S.shape n := fun n hn =>
    shape_nonneg S n hn (hax n hn).1 (hax n hn).2.1.le
  obtain ⟨-, hv⟩ := (mem_coordinates S h0 x).mp hx
  obtain ⟨j, hj, hxj⟩ := hv 0 (by omega)
  obtain ⟨hk0, hsf, hd⟩ := hax 0 (by omega)
  obtain ⟨-, hm⟩ := axis_count hk0 hsf hd
  rw [elem_shape S 0 (by omega)] at hj
  have hj2 : (j : Int) + 1 ≤ ((elem S.final 0 - elem S.start 0).tdiv (elem S.skips 0)).toNat := by
    omega
  intro hxf
  rw [hxf] at hxj
  nlinarith

/-- C8: for a selector of rank `R >= 1` with, on every axis, `skips[n] > 0`,
`start[n] < final[n]` and `skips[n]` dividing `final[n] - start[n]`, the loop that starts at
the coordinate `start` and applies `next` until it returns `false` ends (with any fuel of
at least `size()` calls) and visits exactly the list `coordinates`: it has `size()`
entries, its members are the `c` with `c[n] = start[n] + k * skips[n]`, `0 <= k < shape()[n]`,
and it is strictly increasing in the lexicographic (row-major) order, so that each
coordinate is visited exactly once. -/
theorem next_enumerates (S : selector) (h : S.enumerable) :
    (∀ fuel, S.size.toNat ≤ fuel → S.walk fuel S.start = some S.coordinates) ∧
    (S.coordinates.length : Int) = S.size ∧
    (∀ c, c ∈ S.coordinates ↔
      c.length = S.rank ∧ ∀ n, n < S.rank → ∃ j : Nat, (j : Int) < elem S.shape n ∧
        elem c n = elem S.start n + (j : Int) * elem S.skips n) ∧
    S.coordinates.Pairwise (List.Lex (fun a b : Int => a < b)) ∧
    S.coordinates.Nodup := by
  have hw := (walk_coordinates S h).2
  obtain ⟨hR, hs, hf, hk, hax⟩ := h
  have h0 : ∀ n, n < S.rank → 0 ≤ elem S.shape n := fun n hn =>
    shape_nonneg S n hn (hax n hn).1 (hax n hn).2.1.le
  have hp : S.coordinates.Pairwise (List.Lex (fun a b : Int => a < b)) := by
    apply pairwise_row_major
    intro vs hvs
    simp only [List.mem_map, List.mem_range] at hvs
    obtain ⟨n, hn, rfl⟩ := hvs
    exact pairwise_axis_values S n (hax n hn).1
  refine ⟨hw, length_coordinates S h0, mem_coordinates S h0, hp, ?_⟩
  unfold List.Nodup
  refine hp.imp ?_
  intro a b hab heq
  subst heq
  exact lex_irrefl a hab

/-- Witness of C8: the full selector with counts `{10, 10}` visits
`(0,0), (0,1), ..., (0,9), (1,0), ..., (9,9)`, 100 coordinates. -/
theorem next_enumerates_witness :
    (selector.mk 2 0 [10, 10] [0, 0] [10, 10] [1, 1]).enumerable ∧
    (selector.mk 2 0 [10, 10] [0, 0] [10, 10] [1, 1]).size = 100 ∧
    (selector.mk 2 0 [10, 10] [0, 0] [10, 10] [1, 1]).coordinates
      = (List.range 10).flatMap (fun i => (List.range 10).map (fun j => [(i : Int), (j : Int)])) ∧
    (selector.mk 2 0 [10, 10] [0, 0] [10, 10] [1, 1]).walk 100 [0, 0]
      = some (selector.mk 2 0 [10, 10] [0, 0] [10, 10] [1, 1]).coordinates :=
  ⟨by decide, by decide, by decide,
   (next_enumerates (selector.mk 2 0 [10, 10] [0, 0] [10, 10] [1, 1]) (by decide)).1 100
     (by decide)⟩

/-- C9: for a selector that satisfies the preconditions of the enumeration and a valid
coordinate `idx`, `next(idx)` returns `false` if and only if `idx[n] = final[n] - skips[n]`
on every axis; the coordinate array is then `final`, the coordinate held by `end()`; and
the loop from `begin()` with `operator++` until the cursor equals `end()` visits the same
list as the loop that steps with `next` from `start`, namely `coordinates`. -/
theorem iterator_matches_next (S : selector) (h : S.enumerable) (idx : List Int)
    (hlen : idx.length = S.rank)
    (_hval : ∀ n, n < S.rank → ∃ j : Nat, (j : Int) < elem S.shape n ∧
      elem idx n = elem S.start n + (j : Int) * elem S.skips n) :
    ((S.next idx).1 = false ↔
      ∀ n, n < S.rank → elem idx n = elem S.final n - elem S.skips n) ∧
    ((S.next idx).1 = false → (S.next idx).2 = S.final ∧ (S.next idx).2 = S.end_.ind) ∧
    (∀ fuel, S.size.toNat ≤ fuel →
      S.range_for fuel S.begin = S.walk fuel S.start ∧
      S.range_for fuel S.begin = some S.coordinates) := by
  have hne := coordinate_ne_final S h
  obtain ⟨-, hw⟩ := walk_coordinates S h
  obtain ⟨hR, hs, hf, hk, hax⟩ := h
  obtain ⟨r, hr⟩ : ∃ r, S.rank = r + 1 := ⟨S.rank - 1, by omega⟩
  obtain ⟨n1, n2⟩ := next_false_iff r S hr hs hf hk idx hlen
  refine ⟨n1, fun hfalse => ⟨n2 hfalse, n2 hfalse⟩, ?_⟩
  intro fuel hfuel
  have h0 : ∀ n, n < S.rank → 0 ≤ elem S.shape n := fun n hn =>
    shape_nonneg S n hn (hax n hn).1 (hax n hn).2.1.le
  have hlen := length_coordinates S h0
  obtain ⟨c1, c2, ⟨tl, c3, -, c5⟩, -⟩ := enumeration_chain r S hr hs hf hk hax
  have key : S.range_for fuel S.begin = some S.coordinates := by
    cases hco : S.coordinates with
    | nil => rw [hco] at c1; simp at c1
    | cons c L =>
      rw [hco] at c1 c2 c3 hlen hne
      simp only [List.head?_cons, Option.some.injEq] at c1
      subst c1
      refine range_for_of_chain S L _ fuel c2 ⟨tl, c3, c5⟩ hne ?_
      simp only [List.length_cons] at hlen
      omega
  exact ⟨by rw [key, hw fuel hfuel], key⟩

/-- Witness of C9: the selector of the iterator test, counts `{10, 10}`, start `{2, 4}`,
final `{8, 6}`, at its last coordinate `(7, 5)`. -/
theorem iterator_matches_next_witness :
    (selector.mk 2 0 [10, 10] [2, 4] [8, 6] [1, 1]).enumerable ∧
    ((selector.mk 2 0 [10, 10] [2, 4] [8, 6] [1, 1]).next [7, 5]).1 = false ∧
    ((selector.mk 2 0 [10, 10] [2, 4] [8, 6] [1, 1]).next [7, 5]).2 = [8, 6] ∧
    (selector.mk 2 0 [10, 10] [2, 4] [8, 6] [1, 1]).range_for 12
        (selector.mk 2 0 [10, 10] [2, 4] [8, 6] [1, 1]).begin
      = (selector.mk 2 0 [10, 10] [2, 4] [8, 6] [1, 1]).walk 12 [2, 4] :=
  have hv : ∀ n, n < 2 → ∃ j : Nat,
      (j : Int) < elem (selector.mk 2 0 [10, 10] [2, 4] [8, 6] [1, 1]).shape n ∧
      elem [7, 5] n = elem [2, 4] n + (j : Int) * elem [1, 1] n := by
    intro n hn
    interval_cases n
    · exact ⟨5, by decide, by decide⟩
    · exact ⟨1, by decide, by decide⟩
  have hc := iterator_matches_next (selector.mk 2 0 [10, 10] [2, 4] [8, 6] [1, 1]) (by decide)
    [7, 5] (by decide) hv
  ⟨by decide, hc.1.mpr (by decide), (hc.2.1 (hc.1.mpr (by decide))).1,
   (hc.2.2 12 (by decide)).1⟩

/-- C10 at the selector of the non-contiguous test, counts `{4, 3, 8, 5}`, full range,
skips `{1, 3, 1, 2}`, for which `size()` is 64: from `start` the last coordinate entry takes
the values 2, 4, 6, ... and never equals `final[3] = 5`, so every call of `next` returns
`true` and the loop does not end, whatever the fuel. -/
theorem next_never_false :
    (selector.mk 4 0 [4, 3, 8, 5] [0, 0, 0, 0] [4, 3, 8, 5] [1, 3, 1, 2]).size = 64 ∧
    (∀ t : Nat, (selector.mk 4 0 [4, 3, 8, 5] [0, 0, 0, 0] [4, 3, 8, 5] [1, 3, 1, 2]).next
        [0, 0, 0, 2 * (t : Int)] = (true, [0, 0, 0, 2 * (t : Int) + 2])) ∧
    ∀ fuel : Nat, (selector.mk 4 0 [4, 3, 8, 5] [0, 0, 0, 0] [4, 3, 8, 5] [1, 3, 1, 2]).walk fuel
        (selector.mk 4 0 [4, 3, 8, 5] [0, 0, 0, 0] [4, 3, 8, 5] [1, 3, 1, 2]).start = none := by
  have hstep : ∀ t : Nat,
      (selector.mk 4 0 [4, 3, 8, 5] [0, 0, 0, 0] [4, 3, 8, 5] [1, 3, 1, 2]).next
        [0, 0, 0, 2 * (t : Int)] = (true, [0, 0, 0, 2 * (t : Int) + 2]) := by
    intro t
    have : ¬ (2 * (t : Int) + 2 = 5) := by omega
    simp [next, next_loop, this]
  refine ⟨by decide, hstep, ?_⟩
  have hgen : ∀ (fuel t : Nat),
      (selector.mk 4 0 [4, 3, 8, 5] [0, 0, 0, 0] [4, 3, 8, 5] [1, 3, 1, 2]).walk fuel
        [0, 0, 0, 2 * (t : Int)] = none := by
    intro fuel
    induction fuel with
    | zero => intro t; rfl
    | succ g ih =>
      intro t
      have := ih (t + 1)
      have e : 2 * ((t + 1 : Nat) : Int) = 2 * (t : Int) + 2 := by push_cast; ring
      rw [e] at this
      simp [walk, hstep, this]
  intro fuel
  exact hgen fuel 0


/-- An axis with `start == final` has no extent. -/
lemma size_eq_zero_of_empty_axis (S : selector) (n : Nat) (hn : n < S.rank)
    (he : elem S.start n = elem S.final n) : S.size = 0 := by
  rw [size_eq_prod]
  apply List.prod_eq_zero
  rw [shape, List.mem_map]
  exact ⟨n, List.mem_range.mpr hn, by rw [he]; simp⟩

/-- C11 at `selector<2>{{10, 10}, {0, 0}, {10, 0}, {1, 1}}`, whose axis 1 has
`start == final`.  As on every selector with an empty axis, `size()` is 0.  But `begin()`
holds `(0, 0)` and `end()` holds `(10, 0)`, so `begin() != end()` and the loop from
`begin()` to `end()` is entered; `next` maps the cursor `(0, t)` to `(0, t + 1)` and returns
`true` for every `t >= 0`, the cursor never equals `end()`, and the loop does not end,
whatever the fuel. -/
theorem empty_selector_loop :
    (∀ (S : selector) (n : Nat), n < S.rank → elem S.start n = elem S.final n → S.size = 0) ∧
    (selector.mk 2 0 [10, 10] [0, 0] [10, 0] [1, 1]).size = 0 ∧
    (selector.mk 2 0 [10, 10] [0, 0] [10, 0] [1, 1]).begin.eq
      (selector.mk 2 0 [10, 10] [0, 0] [10, 0] [1, 1]).end_ = false ∧
    (selector.mk 2 0 [10, 10] [0, 0] [10, 0] [1, 1]).begin.ne
      (selector.mk 2 0 [10, 10] [0, 0] [10, 0] [1, 1]).end_ = true ∧
    (∀ t : Nat, (selector.mk 2 0 [10, 10] [0, 0] [10, 0] [1, 1]).next [0, (t : Int)]
      = (true, [0, (t : Int) + 1])) ∧
    ∀ fuel : Nat, (selector.mk 2 0 [10, 10] [0, 0] [10, 0] [1, 1]).range_for fuel
      (selector.mk 2 0 [10, 10] [0, 0] [10, 0] [1, 1]).begin = none := by
  have hstep : ∀ t : Nat, (selector.mk 2 0 [10, 10] [0, 0] [10, 0] [1, 1]).next [0, (t : Int)]
      = (true, [0, (t : Int) + 1]) := by
    intro t
    have : ¬ ((t : Int) + 1 = 0) := by omega
    simp [next, next_loop, this]
  have hgen : ∀ (fuel t : Nat), (selector.mk 2 0 [10, 10] [0, 0] [10, 0] [1, 1]).range_for fuel
      ⟨(selector.mk 2 0 [10, 10] [0, 0] [10, 0] [1, 1]).reset, [0, (t : Int)]⟩ = none := by
    intro fuel
    induction fuel with
    | zero =>
      intro t
      simp [range_for, iterator.ne, end_]
    | succ g ih =>
      intro t
      have hnext : (⟨(selector.mk 2 0 [10, 10] [0, 0] [10, 0] [1, 1]).reset, [0, (t : Int)]⟩ :
          iterator).incr
          = ⟨(selector.mk 2 0 [10, 10] [0, 0] [10, 0] [1, 1]).reset, [0, ((t + 1 : Nat) : Int)]⟩ := by
        simp only [iterator.incr, next_reset, hstep]
        push_cast
        rfl
      have hne : (⟨(selector.mk 2 0 [10, 10] [0, 0] [10, 0] [1, 1]).reset, [0, (t : Int)]⟩ :
          iterator).ne (selector.mk 2 0 [10, 10] [0, 0] [10, 0] [1, 1]).end_ = true := by
        simp [iterator.ne, end_]
      rw [range_for, if_pos hne, hnext, ih (t + 1)]
      rfl
  refine ⟨fun S n hn he => size_eq_zero_of_empty_axis S n hn he, by decide, by decide,
    by decide, hstep, ?_⟩
  intro fuel
  exact hgen fuel 0

/-- C12: for a selector with `skips[n] > 0` and `start[n] <= final[n]` on every axis,
`shape()` has `rank` entries, `shape()[n]` is the integer quotient
`(final[n] - start[n]) / skips[n]` (truncation and floor agree here: the quotient `q` is
the integer with `q * skips[n] <= final[n] - start[n] < (q + 1) * skips[n]`), and `size()`
is the product of `shape()[n]` over all axes. -/
theorem shape_size_quotient (S : selector)
    (hax : ∀ n, n < S.rank → 0 < elem S.skips n ∧ elem S.start n ≤ elem S.final n) :
    S.shape.length = S.rank ∧
    (∀ n, n < S.rank →
      elem S.shape n = (elem S.final n - elem S.start n) / elem S.skips n ∧
      elem S.shape n * elem S.skips n ≤ elem S.final n - elem S.start n ∧
      elem S.final n - elem S.start n < (elem S.shape n + 1) * elem S.skips n) ∧
    S.size = S.shape.prod ∧
    S.size = ((List.range S.rank).map
      (fun n => (elem S.final n - elem S.start n) / elem S.skips n)).prod := by
  have hq : ∀ n, n < S.rank →
      elem S.shape n = (elem S.final n - elem S.start n) / elem S.skips n := by
    intro n hn
    obtain ⟨hk, hsf⟩ := hax n hn
    rw [elem_shape S n hn, Int.tdiv_eq_ediv (by omega) hk.le]
  refine ⟨by simp [shape], ?_, size_eq_prod S, ?_⟩
  · intro n hn
    obtain ⟨hk, hsf⟩ := hax n hn
    refine ⟨hq n hn, ?_, ?_⟩
    · rw [hq n hn]
      exact Int.ediv_mul_le _ hk.ne.symm
    · rw [hq n hn]
      exact Int.lt_ediv_add_one_mul_self _ hk
  · rw [size_eq_prod]
    congr 1
    rw [shape]
    apply List.map_congr_left
    intro n hn
    have hn2 := List.mem_range.mp hn
    obtain ⟨hk, hsf⟩ := hax n hn2
    rw [Int.tdiv_eq_ediv (by omega) hk.le]

/-- Witness of C12: counts `{4, 3, 8, 5}`, full range, skips `{1, 3, 1, 2}` gives shape
`{4, 1, 8, 2}` and size 64. -/
theorem shape_size_quotient_witness :
    (∀ n, n < 4 → 0 < elem [1, 3, 1, 2] n ∧ elem [0, 0, 0, 0] n ≤ elem [4, 3, 8, 5] n) ∧
    (selector.mk 4 0 [4, 3, 8, 5] [0, 0, 0, 0] [4, 3, 8, 5] [1, 3, 1, 2]).shape = [4, 1, 8, 2] ∧
    (selector.mk 4 0 [4, 3, 8, 5] [0, 0, 0, 0] [4, 3, 8, 5] [1, 3, 1, 2]).size = 64 ∧
    (selector.mk 4 0 [4, 3, 8, 5] [0, 0, 0, 0] [4, 3, 8, 5] [1, 3, 1, 2]).size
      = ((List.range 4).map
          (fun n => (elem [4, 3, 8, 5] n - elem [0, 0, 0, 0] n) / elem [1, 3, 1, 2] n)).prod :=
  ⟨by decide, by decide, by decide,
   (shape_size_quotient (selector.mk 4 0 [4, 3, 8, 5] [0, 0, 0, 0] [4, 3, 8, 5] [1, 3, 1, 2])
     (by decide)).2.2.2⟩

end Old

/-- Writing entry `a` of an array and reading entry `n`. -/
lemma elem_set (l : List Int) (a n : Nat) (v : Int) (ha : a < l.length) :
    elem (l.set a v) n = if n = a then v else elem l n := by
  simp only [elem, List.getD_eq_getElem?_getD, List.getElem?_set]
  by_cases h : a = n
  · subst h; simp [ha]
  · have h2 : ¬ n = a := fun e => h e.symm
    simp [h, h2]

/-- Writing to an entry the value it holds changes nothing. -/
lemma set_elem_self (l : List Int) (a : Nat) : l.set a (elem l a) = l := by
  apply List.ext_getElem (by simp)
  intro n h1 h2
  simp only [List.getElem_set]
  split
  · rename_i h; subst h
    simp [elem, List.getD_eq_getElem?_getD, List.getElem?_eq_getElem h2]
  · rfl

namespace Old

open selector

/-- C13, as stated, fails for a selector whose current axis is not 0:
`S = selector<2>{{10, 12}, {0, 0}, {10, 12}, {1, 1}}.on<1>()` with `(p, q) = (2, 8)` and
`(r, s) = (2, 4)`.  `S.select((2, 8))` narrows axis 1, and after `reset()` the second
`select((2, 4))` narrows axis 0, giving start `{2, 2}` and final `{4, 8}`, while
`S.select((4, 6)).reset()` has start `{0, 4}` and final `{10, 6}`. -/
theorem select_compose_counterexample :
    ((selector.mk 2 0 [10, 12] [0, 0] [10, 12] [1, 1]).on_ 1).axis
      < ((selector.mk 2 0 [10, 12] [0, 0] [10, 12] [1, 1]).on_ 1).rank ∧
    ((((selector.mk 2 0 [10, 12] [0, 0] [10, 12] [1, 1]).on_ 1).select (2, 8)).bind
        (fun T => T.reset.select (2, 4))).map reset
      = some (selector.mk 2 0 [10, 12] [2, 2] [4, 8] [1, 1]) ∧
    (((selector.mk 2 0 [10, 12] [0, 0] [10, 12] [1, 1]).on_ 1).select (2 + 2, 2 + 4)).map reset
      = some (selector.mk 2 0 [10, 12] [0, 4] [10, 6] [1, 1]) ∧
    (selector.mk 2 0 [10, 12] [2, 2] [4, 8] [1, 1]).eq
      (selector.mk 2 0 [10, 12] [0, 4] [10, 6] [1, 1]) = false := by
  decide

/-- The range `select` on an axis within the rank. -/
lemma select_eq (S : selector) (range : Int × Int) (ha : S.axis < S.rank) :
    S.select range = some ⟨S.rank, S.axis + 1, S.count,
      S.start.set S.axis (elem S.start S.axis + range.1),
      S.final.set S.axis (elem S.start S.axis + range.2), S.skips⟩ := by
  rw [select, if_pos ha]

/-- The frame of the range `select` of `src/old.cpp`. -/
lemma select_frame (S : selector) (lo hi : Int) (ha : S.axis < S.rank)
    (hs : S.start.length = S.rank) (hf : S.final.length = S.rank) :
    ∃ T : selector, S.select (lo, hi) = some T ∧
      T.rank = S.rank ∧ T.axis = S.axis + 1 ∧
      elem T.start S.axis = elem S.start S.axis + lo ∧
      elem T.final S.axis = elem S.start S.axis + hi ∧
      T.count = S.count ∧ T.skips = S.skips ∧
      T.start.length = S.rank ∧ T.final.length = S.rank ∧
      ∀ n, n ≠ S.axis → elem T.start n = elem S.start n ∧ elem T.final n = elem S.final n := by
  refine ⟨_, select_eq S _ ha, rfl, rfl, ?_, ?_, rfl, rfl, by simp [hs], by simp [hf], ?_⟩
  · exact (elem_set _ _ _ _ (by omega)).trans (if_pos rfl)
  · exact (elem_set _ _ _ _ (by omega)).trans (if_pos rfl)
  · intro n hn
    exact ⟨(elem_set _ _ _ _ (by omega)).trans (if_neg hn),
      (elem_set _ _ _ _ (by omega)).trans (if_neg hn)⟩

/-- Selecting the whole current range gives the selector back. -/
lemma select_whole (S : selector) (ha : S.axis < S.rank) :
    ∃ T : selector,
      S.select (0, elem S.final S.axis - elem S.start S.axis) = some T ∧
      T.reset = S.reset ∧ T.reset.eq S = true := by
  have e1 : S.start.set S.axis (elem S.start S.axis + 0) = S.start := by
    rw [add_zero, set_elem_self]
  have e2 : S.final.set S.axis (elem S.start S.axis + (elem S.final S.axis - elem S.start S.axis))
      = S.final := by
    rw [add_sub_cancel, set_elem_self]
  refine ⟨_, select_eq S _ ha, ?_, ?_⟩
  · simp only [reset, e1, e2]
  · simp only [reset, e1, e2, eq]
    simp

/-- Two range selections on axis 0 compose by adding the offsets. -/
lemma select_compose (S : selector) (p q r s : Int) (ha : S.axis = 0) (hR : 0 < S.rank)
    (hs : S.start.length = S.rank) (hf : S.final.length = S.rank) :
    ∃ T U V : selector,
      S.select (p, q) = some T ∧ T.reset.select (r, s) = some U ∧
      S.select (p + r, p + s) = some V ∧
      U.reset = V.reset ∧ U.reset.eq V.reset = true := by
  have h1 : 0 < S.start.length := by omega
  have h2 : 0 < S.final.length := by omega
  have e1 : (S.start.set 0 (elem S.start 0 + p)).set 0
      (elem (S.start.set 0 (elem S.start 0 + p)) 0 + r) = S.start.set 0 (elem S.start 0 + (p + r)) := by
    rw [List.set_set, elem_set _ _ _ _ h1]
    simp [add_assoc]
  have e2 : (S.final.set 0 (elem S.start 0 + q)).set 0
      (elem (S.start.set 0 (elem S.start 0 + p)) 0 + s) = S.final.set 0 (elem S.start 0 + (p + s)) := by
    rw [List.set_set, elem_set _ _ _ _ h1]
    simp [add_assoc]
  have ha' : S.axis < S.rank := by omega
  refine ⟨_, _, _, select_eq S _ ha', select_eq _ _ hR, select_eq S _ ha', ?_, ?_⟩
  · simp only [reset, ha, e1, e2]
  · simp only [reset, ha, e1, e2, eq]
    simp

end Old

namespace Hpp

open selector

/-- The range `within` on an axis within the rank. -/
lemma within_eq (S : selector) (range : Int × Int) (ha : S.axis < S.rank) :
    S.within range = some ⟨S.rank, S.axis + 1, S.count,
      S.start.set S.axis (elem S.start S.axis + range.1),
      S.final.set S.axis (elem S.start S.axis + range.2)⟩ := by
  rw [within, if_pos ha]

/-- The frame of the range `within` of `src/ndarray.hpp`. -/
lemma within_frame (S : selector) (lo hi : Int) (ha : S.axis < S.rank)
    (hs : S.start.length = S.rank) (hf : S.final.length = S.rank) :
    ∃ T : selector, S.within (lo, hi) = some T ∧
      T.rank = S.rank ∧ T.axis = S.axis + 1 ∧
      elem T.start S.axis = elem S.start S.axis + lo ∧
      elem T.final S.axis = elem S.start S.axis + hi ∧
      T.count = S.count ∧
      T.start.length = S.rank ∧ T.final.length = S.rank ∧
      ∀ n, n ≠ S.axis → elem T.start n = elem S.start n ∧ elem T.final n = elem S.final n := by
  refine ⟨_, within_eq S _ ha, rfl, rfl, ?_, ?_, rfl, by simp [hs], by simp [hf], ?_⟩
  · exact (elem_set _ _ _ _ (by omega)).trans (if_pos rfl)
  · exact (elem_set _ _ _ _ (by omega)).trans (if_pos rfl)
  · intro n hn
    exact ⟨(elem_set _ _ _ _ (by omega)).trans (if_neg hn),
      (elem_set _ _ _ _ (by omega)).trans (if_neg hn)⟩

/-- Narrowing to the whole current range gives the selector back. -/
lemma within_whole (S : selector) (ha : S.axis < S.rank) :
    ∃ T : selector,
      S.within (0, elem S.final S.axis - elem S.start S.axis) = some T ∧
      T.reset = S.reset ∧ T.reset.eq S = true := by
  have e1 : S.start.set S.axis (elem S.start S.axis + 0) = S.start := by
    rw [add_zero, set_elem_self]
  have e2 : S.final.set S.axis (elem S.start S.axis + (elem S.final S.axis - elem S.start S.axis))
      = S.final := by
    rw [add_sub_cancel, set_elem_self]
  refine ⟨_, within_eq S _ ha, ?_, ?_⟩
  · simp only [reset, e1, e2]
  · simp only [reset, e1, e2, eq]
    simp

/-- Two range narrowings on axis 0 compose by adding the offsets. -/
lemma within_compose (S : selector) (p q r s : Int) (ha : S.axis = 0) (hR : 0 < S.rank)
    (hs : S.start.length = S.rank) (hf : S.final.length = S.rank) :
    ∃ T U V : selector,
      S.within (p, q) = some T ∧ T.reset.within (r, s) = some U ∧
      S.within (p + r, p + s) = some V ∧
      U.reset = V.reset ∧ U.reset.eq V.reset = true := by
  have h1 : 0 < S.start.length := by omega
  have h2 : 0 < S.final.length := by omega
  have e1 : (S.start.set 0 (elem S.start 0 + p)).set 0
      (elem (S.start.set 0 (elem S.start 0 + p)) 0 + r) = S.start.set 0 (elem S.start 0 + (p + r)) := by
    rw [List.set_set, elem_set _ _ _ _ h1]
    simp [add_assoc]
  have e2 : (S.final.set 0 (elem S.start 0 + q)).set 0
      (elem (S.start.set 0 (elem S.start 0 + p)) 0 + s) = S.final.set 0 (elem S.start 0 + (p + s)) := by
    rw [List.set_set, elem_set _ _ _ _ h1]
    simp [add_assoc]
  have ha' : S.axis < S.rank := by omega
  refine ⟨_, _, _, within_eq S _ ha', within_eq _ _ hR, within_eq S _ ha', ?_, ?_⟩
  · simp only [reset, ha, e1, e2]
  · simp only [reset, ha, e1, e2, eq]
    simp

end Hpp

namespace Old

open selector

/-- C13, amended: for a selector `S` (of `src/old.cpp`, and likewise `W` of
`src/ndarray.hpp` with `within`) whose current axis is `a < rank` and every range `(lo, hi)`,
`S.select((lo, hi))` has the same rank, current axis `a + 1`, `start[a] == S.start[a] + lo`,
`final[a] == S.start[a] + hi`, and the same count, skips and start/final on every other axis.
Consequently, comparing count, start, final and skips,
`S.select((0, S.final[a] - S.start[a])).reset() == S`, and, when the current axis of `S`
is 0, `S.select((p, q)).reset().select((r, s)).reset() == S.select((p + r, p + s)).reset()`. -/
theorem range_select_laws (S : selector) (W : Hpp.selector) (lo hi p q r s : Int)
    (hS : S.axis < S.rank ∧ S.start.length = S.rank ∧ S.final.length = S.rank)
    (hW : W.axis < W.rank ∧ W.start.length = W.rank ∧ W.final.length = W.rank) :
    ((∃ T : selector, S.select (lo, hi) = some T ∧
        T.rank = S.rank ∧ T.axis = S.axis + 1 ∧
        elem T.start S.axis = elem S.start S.axis + lo ∧
        elem T.final S.axis = elem S.start S.axis + hi ∧
        T.count = S.count ∧ T.skips = S.skips ∧
        T.start.length = S.rank ∧ T.final.length = S.rank ∧
        ∀ n, n ≠ S.axis → elem T.start n = elem S.start n ∧ elem T.final n = elem S.final n) ∧
     (∃ T : selector,
        S.select (0, elem S.final S.axis - elem S.start S.axis) = some T ∧
        T.reset = S.reset ∧ T.reset.eq S = true) ∧
     (S.axis = 0 → ∃ T U V : selector,
        S.select (p, q) = some T ∧ T.reset.select (r, s) = some U ∧
        S.select (p + r, p + s) = some V ∧
        U.reset = V.reset ∧ U.reset.eq V.reset = true)) ∧
    ((∃ T : Hpp.selector, W.within (lo, hi) = some T ∧
        T.rank = W.rank ∧ T.axis = W.axis + 1 ∧
        elem T.start W.axis = elem W.start W.axis + lo ∧
        elem T.final W.axis = elem W.start W.axis + hi ∧
        T.count = W.count ∧
        T.start.length = W.rank ∧ T.final.length = W.rank ∧
        ∀ n, n ≠ W.axis → elem T.start n = elem W.start n ∧ elem T.final n = elem W.final n) ∧
     (∃ T : Hpp.selector,
        W.within (0, elem W.final W.axis - elem W.start W.axis) = some T ∧
        T.reset = W.reset ∧ T.reset.eq W = true) ∧
     (W.axis = 0 → ∃ T U V : Hpp.selector,
        W.within (p, q) = some T ∧ T.reset.within (r, s) = some U ∧
        W.within (p + r, p + s) = some V ∧
        U.reset = V.reset ∧ U.reset.eq V.reset = true)) := by
  obtain ⟨hSa, hSs, hSf⟩ := hS
  obtain ⟨hWa, hWs, hWf⟩ := hW
  exact ⟨⟨select_frame S lo hi hSa hSs hSf, select_whole S hSa,
      fun h0 => select_compose S p q r s h0 (by omega) hSs hSf⟩,
    ⟨Hpp.within_frame W lo hi hWa hWs hWf, Hpp.within_whole W hWa,
      fun h0 => Hpp.within_compose W p q r s h0 (by omega) hWs hWf⟩⟩

/-- Witness of the amended C13: counts `{10, 12}`, full range; `select((2, 8))` then
`select((2, 4))` gives start `{4, 0}` and final `{6, 12}`, as does `select((4, 6))`. -/
theorem range_select_laws_witness :
    ((selector.mk 2 0 [10, 12] [0, 0] [10, 12] [1, 1]).axis
        < (selector.mk 2 0 [10, 12] [0, 0] [10, 12] [1, 1]).rank ∧
      (Hpp.selector.mk 2 0 [10, 12] [0, 0] [10, 12]).axis
        < (Hpp.selector.mk 2 0 [10, 12] [0, 0] [10, 12]).rank) ∧
    (∃ T U V : selector,
      (selector.mk 2 0 [10, 12] [0, 0] [10, 12] [1, 1]).select (2, 8) = some T ∧
      T.reset.select (2, 4) = some U ∧
      (selector.mk 2 0 [10, 12] [0, 0] [10, 12] [1, 1]).select (2 + 2, 2 + 4) = some V ∧
      U.reset = V.reset ∧ U.reset.eq V.reset = true) ∧
    (((selector.mk 2 0 [10, 12] [0, 0] [10, 12] [1, 1]).select (2, 8)).bind
        (fun T => T.reset.select (2, 4))).map reset
      = some (selector.mk 2 0 [10, 12] [4, 0] [6, 12] [1, 1]) :=
  ⟨by decide,
   (range_select_laws (selector.mk 2 0 [10, 12] [0, 0] [10, 12] [1, 1])
      (Hpp.selector.mk 2 0 [10, 12] [0, 0] [10, 12]) 2 8 2 8 2 4
      (by decide) (by decide)).1.2.2 rfl,
   by decide⟩

/-- C14: for the full unit-skip rank-3 selector `S` with counts `(a, b, c)` and an index `j`
with `0 <= j < b`, the chained `S.select((0, a), j, (0, c))` is
`S.select((0, a)).select(j).select((0, c))`, one operation per axis from left to right:
the range select leaves the arrays as they are and moves to axis 1, the single-index
select merges the axes 1 and 2 into one axis of count `b * c` with the range
`[j * c, c + j * c)`, and the last range select keeps that range.  The result has rank 2,
count `{a, b * c}`, start `{0, j * c}`, final `{a, j * c + c}`, unit skips and
`shape() == {a, c}`. -/
theorem select_args_rank3 (a b c j : Int) (_hj : 0 ≤ j ∧ j < b) :
    (selector.mk 3 0 [a, b, c] [0, 0, 0] [a, b, c] [1, 1, 1]).select_args
        [.range (0, a), .index j, .range (0, c)]
      = (((selector.mk 3 0 [a, b, c] [0, 0, 0] [a, b, c] [1, 1, 1]).select (0, a)).bind
          (fun T => T.select_int j)).bind (fun U => U.select (0, c)) ∧
    (selector.mk 3 0 [a, b, c] [0, 0, 0] [a, b, c] [1, 1, 1]).select (0, a)
      = some (selector.mk 3 1 [a, b, c] [0, 0, 0] [a, b, c] [1, 1, 1]) ∧
    (selector.mk 3 1 [a, b, c] [0, 0, 0] [a, b, c] [1, 1, 1]).select_int j
      = some (selector.mk 2 1 [a, b * c] [0, j * c] [a, c + j * c] [1, 1]) ∧
    (selector.mk 2 1 [a, b * c] [0, j * c] [a, c + j * c] [1, 1]).select (0, c)
      = some (selector.mk 2 2 [a, b * c] [0, j * c] [a, j * c + c] [1, 1]) ∧
    (selector.mk 3 0 [a, b, c] [0, 0, 0] [a, b, c] [1, 1, 1]).select_args
        [.range (0, a), .index j, .range (0, c)]
      = some (selector.mk 2 2 [a, b * c] [0, j * c] [a, j * c + c] [1, 1]) ∧
    (selector.mk 2 2 [a, b * c] [0, j * c] [a, j * c + c] [1, 1]).rank = 2 ∧
    (selector.mk 2 2 [a, b * c] [0, j * c] [a, j * c + c] [1, 1]).shape = [a, c] := by
  have e1 : (selector.mk 3 0 [a, b, c] [0, 0, 0] [a, b, c] [1, 1, 1]).select (0, a)
      = some (selector.mk 3 1 [a, b, c] [0, 0, 0] [a, b, c] [1, 1, 1]) := by
    simp [select]
  have e2 : (selector.mk 3 1 [a, b, c] [0, 0, 0] [a, b, c] [1, 1, 1]).select_int j
      = some (selector.mk 2 1 [a, b * c] [0, j * c] [a, c + j * c] [1, 1]) := by
    simp [select_int, collapse, collapse_guard, List.range_succ]
  have e3 : (selector.mk 2 1 [a, b * c] [0, j * c] [a, c + j * c] [1, 1]).select (0, c)
      = some (selector.mk 2 2 [a, b * c] [0, j * c] [a, j * c + c] [1, 1]) := by
    simp [select]
  have e0 : (selector.mk 3 0 [a, b, c] [0, 0, 0] [a, b, c] [1, 1, 1]).select_args
        [.range (0, a), .index j, .range (0, c)]
      = (((selector.mk 3 0 [a, b, c] [0, 0, 0] [a, b, c] [1, 1, 1]).select (0, a)).bind
          (fun T => T.select_int j)).bind (fun U => U.select (0, c)) := by
    simp [select_args, select_one, Option.bind_assoc]
  refine ⟨e0, e1, e2, e3, ?_, rfl, ?_⟩
  · rw [e0, e1, Option.some_bind, e2, Option.some_bind, e3]
  · simp [shape, List.range_succ]

/-- Witness of C14: counts `{10, 30, 2}` with `j = 29` gives count `{10, 60}`, start
`{0, 58}`, final `{10, 60}` and shape `{10, 2}`. -/
theorem select_args_rank3_witness :
    ((0 : Int) ≤ 29 ∧ (29 : Int) < 30) ∧
    (selector.mk 3 0 [10, 30, 2] [0, 0, 0] [10, 30, 2] [1, 1, 1]).select_args
        [.range (0, 10), .index 29, .range (0, 2)]
      = some (selector.mk 2 2 [10, 60] [0, 58] [10, 60] [1, 1]) ∧
    (selector.mk 2 2 [10, 60] [0, 58] [10, 60] [1, 1]).shape = [10, 2] ∧
    (selector.mk 3 0 [10, 30, 2] [0, 0, 0] [10, 30, 2] [1, 1, 1]).select_args
        [.range (0, 10), .index 29, .range (0, 2)]
      = some (selector.mk 2 2 [10, 30 * 2] [0, 29 * 2] [10, 29 * 2 + 2] [1, 1]) :=
  ⟨by decide, by decide, by decide,
   (select_args_rank3 10 30 2 29 (by decide)).2.2.2.2.1⟩

end Old

/-- Reading an entry within the array. -/
lemma elem_eq_getElem (l : List Int) (n : Nat) (h : n < l.length) : elem l n = l[n] := by
  simp [elem, List.getD_eq_getElem?_getD, List.getElem?_eq_getElem h]

/-- An array is the list of its entries. -/
lemma range_map_elem (l : List Int) : (List.range l.length).map (fun n => elem l n) = l := by
  apply List.ext_getElem (by simp)
  intro n h1 h2
  simp [elem, List.getD_eq_getElem?_getD, List.getElem?_eq_getElem h2]

lemma elem_replicate_zero (R n : Nat) : elem (List.replicate R 0) n = 0 := by
  simp only [elem, List.getD_eq_getElem?_getD, List.getElem?_replicate]
  split <;> rfl

lemma elem_replicate_one (R n : Nat) (h : n < R) : elem (List.replicate R 1) n = 1 := by
  simp [elem, List.getD_eq_getElem?_getD, List.getElem?_replicate, h]

/-- The array written by `collapse` and `combine` for an array `l`: the entries before `a`,
the merged entry `x`, and the entries after `a + 1`. -/
lemma merge_entries (l : List Int) (a : Nat) (x : Int) (ha : a + 1 < l.length) :
    (List.range (l.length - 1)).map
        (fun n => if n < a then elem l n else if n = a then x else elem l (n + 1))
      = l.take a ++ x :: l.drop (a + 2) := by
  apply List.ext_getElem
  · simp; omega
  · intro n h1 h2
    simp only [List.length_map, List.length_range] at h1
    simp only [List.getElem_map, List.getElem_range]
    by_cases hlt : n < a
    · rw [if_pos hlt, List.getElem_append_left (by simp; omega), List.getElem_take,
        elem_eq_getElem l n (by omega)]
    · rw [if_neg hlt, List.getElem_append_right (by simp; omega)]
      have hlen : (l.take a).length = a := by simp; omega
      by_cases heq : n = a
      · subst heq
        simp [hlen]
      · rw [if_neg heq]
        obtain ⟨m, hm⟩ : ∃ m, n - (l.take a).length = m + 1 := ⟨n - a - 1, by omega⟩
        simp only [hm, List.getElem_cons_succ, List.getElem_drop]
        rw [elem_eq_getElem l (n + 1) (by omega)]
        congr 1
        omega

namespace Old

open selector

/-- The shape of a full unit-skip selector is its count. -/
lemma shape_full (R : Nat) (a : Nat) (count : List Int) (hR : count.length = R) :
    (selector.mk R a count (List.replicate R 0) count (List.replicate R 1)).shape = count := by
  rw [shape]
  simp only
  conv_rhs => rw [← range_map_elem count, hR]
  apply List.map_congr_left
  intro n hn
  have hn2 := List.mem_range.mp hn
  rw [elem_replicate_zero, elem_replicate_one R n hn2]
  simp

/-- The fields of the selector that `combine` builds from a full unit-skip selector. -/
lemma combine_full_fields (count : List Int) (a : Nat) (ha : a + 1 < count.length) :
    ∃ T : selector,
      ((selector.mk count.length 0 count (List.replicate count.length 0) count
          (List.replicate count.length 1)).on_ a).combine = some T ∧
      T.rank = count.length - 1 ∧ T.axis = a ∧
      T.count = count.take a ++ (elem count a * elem count (a + 1)) :: count.drop (a + 2) ∧
      T.skips = List.replicate (count.length - 1) 1 ∧
      T.shape = T.count := by
  have hg : ((selector.mk count.length 0 count (List.replicate count.length 0) count
      (List.replicate count.length 1)).on_ a).collapse_guard = true := by
    simp [collapse_guard, on_]; omega
  have hcount := merge_entries count a (elem count a * elem count (a + 1)) ha
  refine ⟨_, by rw [combine, if_pos hg], rfl, rfl, hcount, ?_, ?_⟩
  · simp only [on_]
    rw [List.eq_replicate_iff]
    refine ⟨by simp, ?_⟩
    intro b hb
    simp only [List.mem_map, List.mem_range] at hb
    obtain ⟨n, hn, rfl⟩ := hb
    rw [elem_replicate_one _ n (by omega), elem_replicate_one _ a (by omega),
      elem_replicate_one _ (n + 1) (by omega)]
    by_cases h0 : a = 0
    · simp [h0]
    · rw [elem_replicate_one _ (a - 1) (by omega)]
      simp
  · rw [shape]
    simp only [on_]
    apply List.map_congr_left
    intro n hn
    have hn2 := List.mem_range.mp hn
    rw [elem_range_map _ _ _ hn2, elem_range_map _ _ _ hn2, elem_range_map _ _ _ hn2]
    rw [elem_replicate_one _ n (by omega), elem_replicate_one _ a (by omega),
      elem_replicate_one _ (n + 1) (by omega), elem_replicate_zero, elem_replicate_zero]
    have hk : (if a = 0 then (1 : Int) else elem (List.replicate count.length 1) (a - 1)) = 1 := by
      by_cases h0 : a = 0
      · simp [h0]
      · rw [if_neg h0, elem_replicate_one _ (a - 1) (by omega)]
    rw [hk]
    by_cases h1 : n < a
    · simp [h1]
    · by_cases h2 : n = a
      · simp [h2]
      · simp [h1, h2]

/-- C15: for a full (start 0, final = count), unit-skip selector `S` of rank `R >= 2` and
an axis `a < R - 1`, `S.on<a>().combine()` has rank `R - 1` and current axis `a`, its count
is `S.count` with the entries `a` and `a + 1` replaced by the single entry
`count[a] * count[a + 1]`, all its skips are 1, its `shape()` is its count, and its
`size()` is `S.size()`. -/
theorem combine_full (count : List Int) (a : Nat) (ha : a + 1 < count.length) :
    ∃ T : selector,
      ((selector.mk count.length 0 count (List.replicate count.length 0) count
          (List.replicate count.length 1)).on_ a).combine = some T ∧
      T.rank = count.length - 1 ∧ T.axis = a ∧
      T.count = count.take a ++ (elem count a * elem count (a + 1)) :: count.drop (a + 2) ∧
      T.skips = List.replicate (count.length - 1) 1 ∧
      T.shape = T.count ∧
      T.size = (selector.mk count.length 0 count (List.replicate count.length 0) count
          (List.replicate count.length 1)).size := by
  obtain ⟨T, h1, h2, h3, h4, h5, h6⟩ := combine_full_fields count a ha
  refine ⟨T, h1, h2, h3, h4, h5, h6, ?_⟩
  rw [size_eq_prod, h6, h4, size_eq_prod, shape_full _ _ _ rfl]
  have e : count = count.take a ++ count[a] :: count[a + 1] :: count.drop (a + 2) := by
    conv_lhs => rw [← List.take_append_drop a count]
    rw [List.drop_eq_getElem_cons (by omega : a < count.length),
      List.drop_eq_getElem_cons (by omega : a + 1 < count.length)]
  conv_rhs => rw [e]
  rw [elem_eq_getElem count a (by omega), elem_eq_getElem count (a + 1) (by omega)]
  simp only [List.prod_append, List.prod_cons]
  ring

/-- Witness of C15: counts `{10, 12, 14}` combined on axis 1 gives count `{10, 168}`. -/
theorem combine_full_witness :
    1 + 1 < [(10 : Int), 12, 14].length ∧
    ((selector.mk 3 0 [10, 12, 14] [0, 0, 0] [10, 12, 14] [1, 1, 1]).on_ 0).combine
      = some (selector.mk 2 0 [120, 14] [0, 0] [120, 14] [1, 1]) ∧
    ((selector.mk 3 0 [10, 12, 14] [0, 0, 0] [10, 12, 14] [1, 1, 1]).on_ 1).combine
      = some (selector.mk 2 1 [10, 168] [0, 0] [10, 168] [1, 1]) ∧
    ∃ T : selector,
      ((selector.mk [(10 : Int), 12, 14].length 0 [10, 12, 14]
          (List.replicate [(10 : Int), 12, 14].length 0) [10, 12, 14]
          (List.replicate [(10 : Int), 12, 14].length 1)).on_ 1).combine = some T ∧
      T.rank = [(10 : Int), 12, 14].length - 1 ∧ T.axis = 1 ∧
      T.count = ([10, 12, 14] : List Int).take 1
        ++ (elem [10, 12, 14] 1 * elem [10, 12, 14] (1 + 1)) :: ([10, 12, 14] : List Int).drop (1 + 2) ∧
      T.skips = List.replicate ([(10 : Int), 12, 14].length - 1) 1 ∧
      T.shape = T.count ∧
      T.size = (selector.mk [(10 : Int), 12, 14].length 0 [10, 12, 14]
          (List.replicate [(10 : Int), 12, 14].length 0) [10, 12, 14]
          (List.replicate [(10 : Int), 12, 14].length 1)).size :=
  ⟨by decide, by decide, by decide, combine_full [10, 12, 14] 1 (by decide)⟩

end Old

namespace Hpp

/-- The buffer behind a handle returned by `make_shared`. -/
lemma get_make_shared {α : Type} (h : Heap α) (v : List α) :
    (h.make_shared v).1.get? (h.make_shared v).2 = some v := by
  simp [Heap.make_shared]

/-- Reading the element `m` of the buffer `v` behind the handle `data`. -/
lemma load_eq {α : Type} (h : Heap α) (data : Nat) (v : List α) (m : Nat)
    (hd : h.get? data = some v) : h.load data (m : Int) = v.get? m := by
  unfold Heap.load
  rw [hd]
  simp

/-- Writing the element `m` of the buffer `v` behind the handle `data`. -/
lemma store_eq {α : Type} (h : Heap α) (data : Nat) (v : List α) (m : Nat) (x : α)
    (hd : h.get? data = some v) (hm : m < v.length) :
    h.store data (m : Int) x = some (h.set data (v.set m x)) := by
  unfold Heap.store
  rw [hd]
  simp [hm]

/-- The overload of `operator[]` for rank 1. -/
lemma index_rank1 (A : ndarray) (i : Int) (hA : A.rank = 1) :
    A.index i = some (ndarray.of_scalar_offset (A.offset [i]) A.data) := by
  rw [ndarray.index, if_pos hA]

lemma get_eq {α : Type} (h : Heap α) (A : ndarray) (idx : List Int) (hA : idx.length = A.rank) :
    ndarray.get h A idx = h.load A.data (A.offset idx) := by
  rw [ndarray.get, if_pos hA]

lemma put_eq {α : Type} (h : Heap α) (A : ndarray) (idx : List Int) (x : α)
    (hA : idx.length = A.rank) : ndarray.put h A idx x = h.store A.data (A.offset idx) x := by
  rw [ndarray.put, if_pos hA]

lemma to_double_eq {α : Type} (h : Heap α) (A : ndarray) (hA : A.rank = 0) :
    ndarray.to_double h A = h.load A.data A.scalar_offset := by
  rw [ndarray.to_double, if_pos hA]

/-- The flat offset of the coordinate `k` of a rank-1 view with start 0, unit skip and
unit stride. -/
lemma offset_rank1 (count final : List Int) (data : Nat) (k : Int) :
    (ndarray.mk 1 0 count [0] final [1] [1] data).offset [k] = k := by
  simp [ndarray.offset, List.range_succ]

/-- C16: for the rank-1 array `A` built from the list `xs` and an index `i < length(xs)`,
`A[i]` is a rank-0 view that converts to `xs[i]`, which is also what `A(i)` reads;
`A.size()` is `length(xs)` and `A.shape()` is `{length(xs)}`. -/
theorem list_array_index {α : Type} (h : Heap α) (xs : List α) (i : Nat) (hi : i < xs.length) :
    ∃ B : ndarray,
      (ndarray.of_list h xs).2.index (i : Int) = some B ∧ B.rank = 0 ∧
      ndarray.to_double (ndarray.of_list h xs).1 B = some xs[i] ∧
      ndarray.get (ndarray.of_list h xs).1 (ndarray.of_list h xs).2 [(i : Int)] = some xs[i] ∧
      (ndarray.of_list h xs).2.size = (xs.length : Int) ∧
      (ndarray.of_list h xs).2.shape = [(xs.length : Int)] := by
  have hb : (ndarray.of_list h xs).1.get? (ndarray.of_list h xs).2.data = some xs :=
    get_make_shared h xs
  have ho : (ndarray.of_list h xs).2.offset [(i : Int)] = (i : Int) := offset_rank1 _ _ _ _
  have hx : xs.get? i = some xs[i] := by simp [hi]
  refine ⟨ndarray.of_scalar_offset (i : Int) (ndarray.of_list h xs).2.data, ?_, rfl, ?_, ?_, ?_, ?_⟩
  · rw [index_rank1 _ _ rfl, ho]
  · rw [to_double_eq _ _ rfl]
    exact (load_eq _ _ _ _ hb).trans hx
  · rw [get_eq _ _ _ rfl, ho]
    exact (load_eq _ _ _ _ hb).trans hx
  · simp [ndarray.size, ndarray.make_selector, ndarray.of_list, selector.size, selector.shape,
      product, List.range_succ]
  · simp [ndarray.shape, ndarray.make_selector, ndarray.of_list, selector.shape,
      List.range_succ]

/-- Witness of C16: the array `{0, 1, 2, 3, 4}` at index 4. -/
theorem list_array_index_witness :
    4 < [(0 : Int), 1, 2, 3, 4].length ∧
    ∃ B : ndarray,
      (ndarray.of_list [] [(0 : Int), 1, 2, 3, 4]).2.index ((4 : Nat) : Int) = some B ∧
      B.rank = 0 ∧
      ndarray.to_double (ndarray.of_list [] [(0 : Int), 1, 2, 3, 4]).1 B = some 4 ∧
      ndarray.get (ndarray.of_list [] [(0 : Int), 1, 2, 3, 4]).1
        (ndarray.of_list [] [(0 : Int), 1, 2, 3, 4]).2 [((4 : Nat) : Int)] = some 4 ∧
      (ndarray.of_list [] [(0 : Int), 1, 2, 3, 4]).2.size = 5 ∧
      (ndarray.of_list [] [(0 : Int), 1, 2, 3, 4]).2.shape = [5] :=
  ⟨by decide, list_array_index [] [(0 : Int), 1, 2, 3, 4] 4 (by decide)⟩

/-- The view and the buffer of a freshly constructed rank-1 array of length `n`. -/
lemma of_dims_rank1 {α : Type} (zero : α) (h : Heap α) (n : Nat) :
    (ndarray.of_dims zero h [(n : Int)]).2 = ndarray.mk 1 0 [(n : Int)] [0] [(n : Int)] [1] [1] h.length ∧
    (ndarray.of_dims zero h [(n : Int)]).1.get? h.length = some (List.replicate n zero) := by
  constructor
  · simp [ndarray.of_dims, Heap.make_shared, ndarray.constant_array, ndarray.compute_strides,
      partial_sum]
  · simp [ndarray.of_dims, Heap.make_shared, product]

/-- C17: for a freshly constructed rank-1 array `A` of length `n`, an index `i < n` and a
value `v`, assigning `v` through the element accessor of the rank-0 view `A[i]` makes
`A(i)` read `v`, leaves what `A(k)` reads (the initial value) unchanged for every other
`k < n`, and leaves every other buffer unchanged. -/
theorem index_write_frame {α : Type} (zero v : α) (h : Heap α) (n i : Nat) (hi : i < n) :
    ∃ (B : ndarray) (h2 : Heap α),
      (ndarray.of_dims zero h [(n : Int)]).2.index (i : Int) = some B ∧ B.rank = 0 ∧
      ndarray.put (ndarray.of_dims zero h [(n : Int)]).1 B [] v = some h2 ∧
      ndarray.get h2 (ndarray.of_dims zero h [(n : Int)]).2 [(i : Int)] = some v ∧
      (∀ k : Nat, k < n → k ≠ i →
        ndarray.get (ndarray.of_dims zero h [(n : Int)]).1
          (ndarray.of_dims zero h [(n : Int)]).2 [(k : Int)] = some zero ∧
        ndarray.get h2 (ndarray.of_dims zero h [(n : Int)]).2 [(k : Int)] = some zero) ∧
      (∀ p : Nat, p ≠ (ndarray.of_dims zero h [(n : Int)]).2.data →
        h2.get? p = (ndarray.of_dims zero h [(n : Int)]).1.get? p) := by
  obtain ⟨hv, hb⟩ := of_dims_rank1 zero h n
  rw [hv]
  have ho : ∀ k : Int, (ndarray.mk 1 0 [(n : Int)] [0] [(n : Int)] [1] [1] h.length).offset [k] = k :=
    fun k => offset_rank1 _ _ _ _
  have hb2 : ((ndarray.of_dims zero h [(n : Int)]).1.set h.length
      ((List.replicate n zero).set i v)).get? h.length
        = some ((List.replicate n zero).set i v) := by
    have hl : h.length < (ndarray.of_dims zero h [(n : Int)]).1.length := by
      simp [ndarray.of_dims, Heap.make_shared]
    simp [hl]
  refine ⟨ndarray.of_scalar_offset (i : Int) h.length,
    (ndarray.of_dims zero h [(n : Int)]).1.set h.length ((List.replicate n zero).set i v),
    ?_, rfl, ?_, ?_, ?_, ?_⟩
  · rw [index_rank1 _ _ rfl, ho]
  · rw [put_eq _ _ _ _ rfl]
    exact store_eq _ _ _ _ _ hb (by simp [hi])
  · rw [get_eq _ _ _ rfl, ho, load_eq _ _ _ _ hb2]
    simp [hi]
  · intro k hk hki
    constructor
    · rw [get_eq _ _ _ rfl, ho, load_eq _ _ _ _ hb]
      simp [hk]
    · rw [get_eq _ _ _ rfl, ho, load_eq _ _ _ _ hb2]
      have : i ≠ k := fun e => hki e.symm
      simp [hk, this]
  · intro p hp
    have : h.length ≠ p := fun e => hp e.symm
    simp [this]

/-- Witness of C17: the array `ndarray<1>(5)`, written at index 2. -/
theorem index_write_frame_witness :
    2 < 5 ∧
    ∃ (B : ndarray) (h2 : Heap Int),
      (ndarray.of_dims (0 : Int) [] [((5 : Nat) : Int)]).2.index ((2 : Nat) : Int) = some B ∧
      B.rank = 0 ∧
      ndarray.put (ndarray.of_dims (0 : Int) [] [((5 : Nat) : Int)]).1 B [] 7 = some h2 ∧
      ndarray.get h2 (ndarray.of_dims (0 : Int) [] [((5 : Nat) : Int)]).2 [((2 : Nat) : Int)]
        = some 7 ∧
      (∀ k : Nat, k < 5 → k ≠ 2 →
        ndarray.get (ndarray.of_dims (0 : Int) [] [((5 : Nat) : Int)]).1
          (ndarray.of_dims (0 : Int) [] [((5 : Nat) : Int)]).2 [(k : Int)] = some 0 ∧
        ndarray.get h2 (ndarray.of_dims (0 : Int) [] [((5 : Nat) : Int)]).2 [(k : Int)]
          = some 0) ∧
      (∀ p : Nat, p ≠ (ndarray.of_dims (0 : Int) [] [((5 : Nat) : Int)]).2.data →
        h2.get? p = (ndarray.of_dims (0 : Int) [] [((5 : Nat) : Int)]).1.get? p) :=
  ⟨by decide, index_write_frame (0 : Int) 7 [] 5 2 (by decide)⟩

/-- C18: the rank-0 array `ndarray<0>(v)` converts to `v` and its accessor `A()` reads `v`;
after assigning `w` through `A()`, both `A()` and the conversion yield `w`. -/
theorem scalar_round_trip {α : Type} (h : Heap α) (v w : α) :
    (ndarray.of_scalar h v).2.rank = 0 ∧
    ndarray.to_double (ndarray.of_scalar h v).1 (ndarray.of_scalar h v).2 = some v ∧
    ndarray.get (ndarray.of_scalar h v).1 (ndarray.of_scalar h v).2 [] = some v ∧
    ∃ h2 : Heap α,
      ndarray.put (ndarray.of_scalar h v).1 (ndarray.of_scalar h v).2 [] w = some h2 ∧
      ndarray.get h2 (ndarray.of_scalar h v).2 [] = some w ∧
      ndarray.to_double h2 (ndarray.of_scalar h v).2 = some w := by
  have hb : (ndarray.of_scalar h v).1.get? (ndarray.of_scalar h v).2.data = some [v] :=
    get_make_shared h [v]
  have ho : (ndarray.of_scalar h v).2.offset [] = ((0 : Nat) : Int) := by
    simp [ndarray.offset, ndarray.of_scalar]
  have hso : (ndarray.of_scalar h v).2.scalar_offset = ((0 : Nat) : Int) := by
    simp [ndarray.of_scalar]
  have hb2 : ((ndarray.of_scalar h v).1.set (ndarray.of_scalar h v).2.data ([v].set 0 w)).get?
      (ndarray.of_scalar h v).2.data = some [w] := by
    simp [ndarray.of_scalar, Heap.make_shared]
  refine ⟨rfl, ?_, ?_, (ndarray.of_scalar h v).1.set (ndarray.of_scalar h v).2.data ([v].set 0 w),
    ?_, ?_, ?_⟩
  · rw [to_double_eq _ _ rfl, hso, load_eq _ _ _ _ hb]; rfl
  · rw [get_eq _ _ _ rfl, ho, load_eq _ _ _ _ hb]; rfl
  · rw [put_eq _ _ _ _ rfl, ho]
    exact store_eq _ _ _ _ _ hb (by simp)
  · rw [get_eq _ _ _ rfl, ho, load_eq _ _ _ _ hb2]; rfl
  · rw [to_double_eq _ _ rfl, hso, load_eq _ _ _ _ hb2]; rfl


/-- The helper `product` is the product of the entries. -/
lemma product_eq_prod (c : List Int) : product c = c.prod := by
  simp [product, List.prod_eq_foldl]

/-- C19: for an array freshly constructed from the extents `d`, all non-negative, `shape()`
is `d`, `size()` is the product of the extents, the allocated buffer has exactly that many
elements, every one of them the initial value zero, and `contiguous()` is true. -/
theorem fresh_array {α : Type} (zero : α) (h : Heap α) (d : List Int)
    (hd : ∀ x ∈ d, 0 ≤ x) :
    (ndarray.of_dims zero h d).2.rank = d.length ∧
    (ndarray.of_dims zero h d).2.shape = d ∧
    (ndarray.of_dims zero h d).2.size = d.prod ∧
    (∃ buf : List α,
      (ndarray.of_dims zero h d).1.get? (ndarray.of_dims zero h d).2.data = some buf ∧
      (buf.length : Int) = d.prod ∧ ∀ x ∈ buf, x = zero) ∧
    (ndarray.of_dims zero h d).2.contiguous = true := by
  have hshape : (ndarray.of_dims zero h d).2.shape = d := by
    rw [of_dims_view]
    simp only [ndarray.shape, ndarray.make_selector, selector.shape, ndarray.constant_array]
    conv_rhs => rw [← range_map_elem d]
    apply List.map_congr_left
    intro n _
    rw [elem_replicate_zero, sub_zero]
  refine ⟨rfl, hshape, ?_, ⟨List.replicate (product d).toNat zero, ?_, ?_, ?_⟩, ?_⟩
  · have : (ndarray.of_dims zero h d).2.size
        = product (ndarray.of_dims zero h d).2.shape := rfl
    rw [this, hshape, product_eq_prod]
  · exact get_make_shared h _
  · rw [List.length_replicate, product_eq_prod]
    exact Int.toNat_of_nonneg (List.prod_nonneg hd)
  · intro x hx
    exact List.eq_of_mem_replicate hx
  · rw [of_dims_view]
    simp only [ndarray.contiguous, ndarray.constant_array, List.all_eq_true, List.mem_range]
    intro n hn
    have e0 := elem_replicate_zero d.length n
    have e1 := elem_replicate_one d.length n hn
    simp only [e0, e1]
    simp

/-- Witness of C19: the array `ndarray<2>(3, 100)` has shape `{3, 100}` and 300 elements. -/
theorem fresh_array_witness :
    (∀ x ∈ [(3 : Int), 100], 0 ≤ x) ∧
    ([(3 : Int), 100].prod = 300) ∧
    (ndarray.of_dims (0 : Int) [] [3, 100]).2.rank = [(3 : Int), 100].length ∧
    (ndarray.of_dims (0 : Int) [] [3, 100]).2.shape = [3, 100] ∧
    (ndarray.of_dims (0 : Int) [] [3, 100]).2.size = [(3 : Int), 100].prod ∧
    (∃ buf : List Int,
      (ndarray.of_dims (0 : Int) [] [3, 100]).1.get? (ndarray.of_dims (0 : Int) [] [3, 100]).2.data
        = some buf ∧
      (buf.length : Int) = [(3 : Int), 100].prod ∧ ∀ x ∈ buf, x = 0) ∧
    (ndarray.of_dims (0 : Int) [] [3, 100]).2.contiguous = true :=
  ⟨by decide, by decide, fresh_array (0 : Int) [] [3, 100] (by decide)⟩

/-- C20 at the buffer of 3 elements behind handle 0 and the selector
`selector<1>{{5}, {0}, {5}}`, whose count has product 5: the constructors from extents and
from count/start/final fail their `assert`, but the constructor from a selector has no
`assert` and builds the view over the buffer of the wrong length.  The two constructors
with an `assert` fail exactly when the lengths differ. -/
theorem selector_constructor_unchecked {α : Type} (x : α) :
    ndarray.size_matches [[x, x, x]] [5] 0 = some false ∧
    ndarray.of_dims_data [[x, x, x]] [5] 0 = none ∧
    ndarray.of_count_start_final_data [[x, x, x]] [5] [0] [5] 0 = none ∧
    ndarray.of_selector (selector.mk 1 0 [5] [0] [5]) 0
      = ndarray.mk 1 0 [5] [0] [5] [1] [1] 0 ∧
    (∀ (h : Heap α) (data : Nat) (buf : List α) (count start final : List Int),
      h.get? data = some buf →
      (ndarray.of_dims_data h count data = none ↔ (buf.length : Int) ≠ product count) ∧
      (ndarray.of_count_start_final_data h count start final data = none
        ↔ (buf.length : Int) ≠ product count)) := by
  have h1 : ndarray.size_matches [[x, x, x]] [5] 0 = some false := by
    simp [ndarray.size_matches, product]
  refine ⟨h1, ?_, ?_, by decide, ?_⟩
  · simp [ndarray.of_dims_data, h1]
  · simp [ndarray.of_count_start_final_data, h1]
  · intro h data buf count start final hb
    have hm : ndarray.size_matches h count data
        = some (decide ((buf.length : Int) = product count)) := by
      unfold ndarray.size_matches
      rw [hb]; rfl
    constructor
    · simp [ndarray.of_dims_data, hm]
    · simp [ndarray.of_count_start_final_data, hm]

end Hpp

namespace Old

open selector

/-- C21 on the two selector variants.  The guard of `collapse` in `src/old.cpp` admits
only `axis < rank - 1`, so every read at `axis + 1` is within the rank.  The guard of
`collapse` in `src/ndarray.hpp` is `axis < rank`: it admits the last axis, as for
`selector<1>{{5}, {0}, {5}}` with `axis = 0` (where `within(0)` is admitted and
`axis + 1 = 1` is not below the rank 1) and for the rank-2 selector with current axis 1. -/
theorem collapse_guard_last_axis :
    (∀ S : selector, S.collapse_guard = true → S.axis + 1 < S.rank) ∧
    (∀ (S : selector) (i : Int), (S.select_int i).isSome = true → S.axis + 1 < S.rank) ∧
    (Hpp.selector.mk 1 0 [5] [0] [5]).collapse_guard = true ∧
    ((Hpp.selector.mk 1 0 [5] [0] [5]).within_int 0).isSome = true ∧
    ¬ ((Hpp.selector.mk 1 0 [5] [0] [5]).axis + 1 < (Hpp.selector.mk 1 0 [5] [0] [5]).rank) ∧
    (Hpp.selector.mk 2 1 [10, 12] [0, 0] [10, 12]).collapse_guard = true ∧
    ¬ ((Hpp.selector.mk 2 1 [10, 12] [0, 0] [10, 12]).axis + 1
        < (Hpp.selector.mk 2 1 [10, 12] [0, 0] [10, 12]).rank) := by
  have h1 : ∀ S : selector, S.collapse_guard = true → S.axis + 1 < S.rank := by
    intro S hS
    simp only [collapse_guard, Bool.and_eq_true, decide_eq_true_eq] at hS
    omega
  refine ⟨h1, ?_, by decide, by decide, by decide, by decide, by decide⟩
  intro S i hi
  apply h1
  by_contra hg
  simp [select_int, collapse, hg] at hi

/-- The range `select` within the current range keeps the contract. -/
lemma select_contract (S : selector) (lo hi : Int) (hc : S.contract)
    (hs : S.start.length = S.rank) (hf : S.final.length = S.rank)
    (ha : S.axis < S.rank) (h0 : 0 ≤ lo) (h1 : lo ≤ hi)
    (h2 : hi ≤ elem S.final S.axis - elem S.start S.axis) :
    ∃ T : selector, S.select (lo, hi) = some T ∧ T.contract := by
  obtain ⟨T, hT, hr, -, t1, t2, t3, t4, -, -, t5⟩ := select_frame S lo hi ha hs hf
  refine ⟨T, hT, ?_⟩
  intro n hn
  rw [hr] at hn
  obtain ⟨c1, c2, c3⟩ := hc n hn
  rw [t3, t4]
  by_cases hna : n = S.axis
  · subst hna
    rw [t1, t2]
    exact ⟨by omega, by omega, by omega⟩
  · obtain ⟨e1, e2⟩ := t5 n hna
    rw [e1, e2]
    exact ⟨c1, c2, c3⟩

/-- C22 at the unit-skip selector `selector<2>{{10, 2}, {8, 0}, {10, 2}, {1, 1}}`, which
satisfies the contract and has `shape() == {2, 2}`.  The range `select` keeps the contract
of every selector, as the claim says.  But `collapse(0)` has count `{20}`, start `{80}` and
final `{82}`, and `collapse(1)` has start `{82}` and final `{84}`: the range lies outside
the merged extent `count[0] * skips[0] = 20`, so the contract is broken. -/
theorem collapse_breaks_contract :
    (∀ (S : selector) (lo hi : Int), S.contract →
      S.start.length = S.rank → S.final.length = S.rank → S.axis < S.rank →
      0 ≤ lo → lo ≤ hi → hi ≤ elem S.final S.axis - elem S.start S.axis →
      ∃ T : selector, S.select (lo, hi) = some T ∧ T.contract) ∧
    (selector.mk 2 0 [10, 2] [8, 0] [10, 2] [1, 1]).contract ∧
    (selector.mk 2 0 [10, 2] [8, 0] [10, 2] [1, 1]).shape = [2, 2] ∧
    ((selector.mk 2 0 [10, 2] [8, 0] [10, 2] [1, 1]).on_ 0).collapse 0
      = some (selector.mk 1 0 [20] [80] [82] [1]) ∧
    ¬ (selector.mk 1 0 [20] [80] [82] [1]).contract ∧
    ((selector.mk 2 0 [10, 2] [8, 0] [10, 2] [1, 1]).on_ 0).collapse 1
      = some (selector.mk 1 0 [20] [82] [84] [1]) ∧
    ¬ (selector.mk 1 0 [20] [82] [84] [1]).contract :=
  ⟨fun S lo hi hc hs hf ha h0 h1 h2 => select_contract S lo hi hc hs hf ha h0 h1 h2,
   by decide, by decide, by decide, by decide, by decide, by decide⟩

end Old

/-- Reading entry `n + 1` is reading entry `n` of the tail. -/
lemma elem_succ_tail (l : List Int) (n : Nat) : elem l (n + 1) = elem l.tail n := by
  cases l <;> simp [elem]

namespace Hpp

/-- The row-major sum over the extents `c :: cs`: the term of axis 0 and the sum over the
trailing axes. -/
lemma flat_cons (c : Int) (cs start idx : List Int) :
    ((List.range (c :: cs).length).map
        (fun n => elem start n + elem idx n * ((c :: cs).drop (n + 1)).prod)).sum
      = (elem start 0 + elem idx 0 * cs.prod)
        + ((List.range cs.length).map
            (fun n => elem start.tail n + elem idx.tail n * (cs.drop (n + 1)).prod)).sum := by
  rw [List.length_cons, List.range_succ_eq_map, List.map_cons, List.sum_cons, List.map_map]
  congr 1
  congr 1
  apply List.map_congr_left
  intro n _
  simp only [Function.comp, Nat.succ_eq_add_one, List.drop_succ_cons]
  rw [elem_succ_tail, elem_succ_tail]

/-- The flat offset of an in-range coordinate of a view within its count is within the
product of the count. -/
lemma flat_bound : ∀ (count start idx : List Int),
    (∀ n, n < count.length →
      0 ≤ elem start n ∧ 0 ≤ elem idx n ∧ elem start n + elem idx n + 1 ≤ elem count n) →
    0 ≤ ((List.range count.length).map
        (fun n => elem start n + elem idx n * (count.drop (n + 1)).prod)).sum ∧
    ((List.range count.length).map
        (fun n => elem start n + elem idx n * (count.drop (n + 1)).prod)).sum + 1
      ≤ count.prod := by
  intro count
  induction count with
  | nil => intro start idx _; simp
  | cons c cs ih =>
    intro start idx hax
    rw [flat_cons]
    have htail : ∀ n, n < cs.length →
        0 ≤ elem start.tail n ∧ 0 ≤ elem idx.tail n ∧
          elem start.tail n + elem idx.tail n + 1 ≤ elem cs n := by
      intro n hn
      have := hax (n + 1) (by simp; omega)
      rw [elem_succ_tail, elem_succ_tail, elem_succ_tail] at this
      exact this
    obtain ⟨g0, g1⟩ := ih start.tail idx.tail htail
    obtain ⟨s0, i0, b0⟩ := hax 0 (by simp)
    have hc0 : elem (c :: cs) 0 = c := rfl
    rw [hc0] at b0
    rw [List.prod_cons]
    have hP : 1 ≤ cs.prod := by omega
    have h1 : 0 ≤ elem idx 0 * cs.prod := mul_nonneg i0 (by omega)
    have h2 : (elem start 0 + elem idx 0 + 1) * cs.prod ≤ c * cs.prod :=
      mul_le_mul_of_nonneg_right b0 (by omega)
    have h3 : elem start 0 ≤ elem start 0 * cs.prod := by nlinarith
    constructor
    · omega
    · nlinarith

/-- Distinct in-range coordinates of a view with start 0 have distinct row-major sums. -/
lemma flat_inj : ∀ (count start idx idx' : List Int),
    (∀ n, elem start n = 0) →
    idx.length = count.length → idx'.length = count.length →
    (∀ n, n < count.length → 0 ≤ elem idx n ∧ elem idx n + 1 ≤ elem count n) →
    (∀ n, n < count.length → 0 ≤ elem idx' n ∧ elem idx' n + 1 ≤ elem count n) →
    ((List.range count.length).map
        (fun n => elem start n + elem idx n * (count.drop (n + 1)).prod)).sum
      = ((List.range count.length).map
        (fun n => elem start n + elem idx' n * (count.drop (n + 1)).prod)).sum →
    idx = idx' := by
  intro count
  induction count with
  | nil =>
    intro start idx idx' _ h1 h2 _ _ _
    rw [List.length_eq_zero.mp h1, List.length_eq_zero.mp h2]
  | cons c cs ih =>
    intro start idx idx' hz h1 h2 hi hj heq
    obtain ⟨i, is, rfl⟩ : ∃ i is, idx = i :: is := by
      cases idx with
      | nil => simp at h1
      | cons i is => exact ⟨i, is, rfl⟩
    obtain ⟨j, js, rfl⟩ : ∃ j js, idx' = j :: js := by
      cases idx' with
      | nil => simp at h2
      | cons j js => exact ⟨j, js, rfl⟩
    rw [flat_cons, flat_cons] at heq
    have hzt : ∀ n, elem start.tail n = 0 := fun n => by rw [← elem_succ_tail]; exact hz (n + 1)
    have hit : ∀ n, n < cs.length → 0 ≤ elem is n ∧ elem is n + 1 ≤ elem cs n := by
      intro n hn
      have := hi (n + 1) (by simp; omega)
      rwa [elem_succ_tail, elem_succ_tail] at this
    have hjt : ∀ n, n < cs.length → 0 ≤ elem js n ∧ elem js n + 1 ≤ elem cs n := by
      intro n hn
      have := hj (n + 1) (by simp; omega)
      rwa [elem_succ_tail, elem_succ_tail] at this
    obtain ⟨gi0, gi1⟩ := flat_bound cs start.tail is (fun n hn =>
      ⟨by rw [hzt], (hit n hn).1, by rw [hzt]; have := (hit n hn).2; omega⟩)
    obtain ⟨gj0, gj1⟩ := flat_bound cs start.tail js (fun n hn =>
      ⟨by rw [hzt], (hjt n hn).1, by rw [hzt]; have := (hjt n hn).2; omega⟩)
    simp only [List.tail_cons] at heq gi0 gi1 gj0 gj1
    have e0 : elem (i :: is) 0 = i := rfl
    have e1 : elem (j :: js) 0 = j := rfl
    rw [e0, e1, hz 0] at heq
    have hij : i = j := by
      rcases lt_trichotomy i j with hlt | heq2 | hgt
      · exfalso
        have : (i + 1) * cs.prod ≤ j * cs.prod :=
          mul_le_mul_of_nonneg_right (by omega) (by omega)
        nlinarith
      · exact heq2
      · exfalso
        have : (j + 1) * cs.prod ≤ i * cs.prod :=
          mul_le_mul_of_nonneg_right (by omega) (by omega)
        nlinarith
    subst hij
    have heq3 : ((List.range cs.length).map
        (fun n => elem start.tail n + elem is n * (cs.drop (n + 1)).prod)).sum
      = ((List.range cs.length).map
        (fun n => elem start.tail n + elem js n * (cs.drop (n + 1)).prod)).sum := by
      linarith
    have := ih start.tail is js hzt (by simpa using h1) (by simpa using h2) hit hjt heq3
    rw [this]

/-- The flat offset of a view with scalar offset 0, unit skips and the strides computed
from its count. -/
lemma offset_unit_skip (A : ndarray) (idx : List Int) (hcl : A.count.length = A.rank)
    (hso : A.scalar_offset = 0) (hsk : A.skips = ndarray.constant_array A.rank 1)
    (hst : A.strides = ndarray.compute_strides A.rank A.count) :
    A.offset idx = ((List.range A.count.length).map
      (fun n => elem A.start n + elem idx n * (A.count.drop (n + 1)).prod)).sum := by
  rw [ndarray.offset, foldl_add_range, hso, zero_add, hcl]
  congr 1
  apply List.map_congr_left
  intro n hn
  have hn2 : n < A.rank := List.mem_range.mp hn
  rw [hsk, hst, ndarray.constant_array, elem_replicate_one _ n hn2]
  have := compute_strides_elem A.count n (by omega)
  rw [hcl] at this
  rw [this, one_mul]

/-- C23: for a view of rank `R >= 1` with scalar offset 0, unit skips, the row-major strides
computed from its count, `0 <= start[n] <= final[n] <= count[n]` on every axis and a buffer
whose length is the product of the count, and for a coordinate `idx` with
`0 <= idx[n] < shape()[n]` on every axis, the flat offset satisfies
`0 <= offset(idx) < length`, so that `operator()` reads an element of the buffer. -/
theorem offset_in_bounds {α : Type} (h : Heap α) (A : ndarray) (buf : List α) (idx : List Int)
    (_hR : 1 ≤ A.rank) (hcl : A.count.length = A.rank)
    (hso : A.scalar_offset = 0) (hsk : A.skips = ndarray.constant_array A.rank 1)
    (hst : A.strides = ndarray.compute_strides A.rank A.count)
    (hax : ∀ n, n < A.rank →
      0 ≤ elem A.start n ∧ elem A.start n ≤ elem A.final n ∧ elem A.final n ≤ elem A.count n)
    (hbuf : h.get? A.data = some buf) (hbl : (buf.length : Int) = product A.count)
    (hlen : idx.length = A.rank)
    (hidx : ∀ n, n < A.rank → 0 ≤ elem idx n ∧ elem idx n < elem A.shape n) :
    0 ≤ A.offset idx ∧ A.offset idx < (buf.length : Int) ∧
    ∃ x : α, ndarray.get h A idx = some x := by
  have hb := flat_bound A.count A.start idx (by
    intro n hn
    rw [hcl] at hn
    obtain ⟨a1, a2, a3⟩ := hax n hn
    obtain ⟨i1, i2⟩ := hidx n hn
    have hs : elem A.shape n = elem A.final n - elem A.start n := by
      simp only [ndarray.shape, ndarray.make_selector, selector.shape]
      exact Old.elem_range_map _ _ _ hn
    rw [hs] at i2
    exact ⟨a1, i1, by omega⟩)
  rw [← offset_unit_skip A idx hcl hso hsk hst, ← product_eq_prod, ← hbl] at hb
  obtain ⟨b0, b1⟩ := hb
  refine ⟨b0, by omega, ?_⟩
  rw [get_eq h A idx hlen]
  have e : A.offset idx = (((A.offset idx).toNat : Nat) : Int) := (Int.toNat_of_nonneg b0).symm
  rw [e, load_eq h A.data buf _ hbuf]
  have hlt : (A.offset idx).toNat < buf.length := by omega
  exact ⟨buf[(A.offset idx).toNat], by simp [hlt]⟩

/-- Witness of C23: the view with count `{3, 4}`, start `{1, 0}`, final `{2, 4}` over a
buffer of 12 elements, at the coordinate `(0, 3)`. -/
theorem offset_in_bounds_witness :
    ((ndarray.mk 2 0 [3, 4] [1, 0] [2, 4] [1, 1] [4, 1] 0).shape = [1, 4] ∧
     ((List.replicate 12 (0 : Int)).length : Int)
       = product (ndarray.mk 2 0 [3, 4] [1, 0] [2, 4] [1, 1] [4, 1] 0).count) ∧
    0 ≤ (ndarray.mk 2 0 [3, 4] [1, 0] [2, 4] [1, 1] [4, 1] 0).offset [0, 3] ∧
    (ndarray.mk 2 0 [3, 4] [1, 0] [2, 4] [1, 1] [4, 1] 0).offset [0, 3]
      < ((List.replicate 12 (0 : Int)).length : Int) ∧
    ∃ x : Int, ndarray.get [List.replicate 12 (0 : Int)]
      (ndarray.mk 2 0 [3, 4] [1, 0] [2, 4] [1, 1] [4, 1] 0) [0, 3] = some x :=
  ⟨by decide,
   offset_in_bounds [List.replicate 12 (0 : Int)]
     (ndarray.mk 2 0 [3, 4] [1, 0] [2, 4] [1, 1] [4, 1] 0) (List.replicate 12 (0 : Int)) [0, 3]
     (by decide) (by decide) (by decide) (by decide) (by decide) (by decide) (by decide)
     (by decide) (by decide) (by decide)⟩


/-- The flat offset of a coordinate of a fresh array is its row-major sum. -/
lemma fresh_offset {α : Type} (zero : α) (h : Heap α) (d c : List Int) :
    (ndarray.of_dims zero h d).2.offset c
      = ((List.range d.length).map
          (fun n => elem (List.replicate d.length 0) n + elem c n * (d.drop (n + 1)).prod)).sum := by
  rw [offset_unit_skip _ c rfl rfl rfl rfl]
  rfl

/-- The flat offset of an in-range coordinate of a fresh array is within its buffer. -/
lemma fresh_offset_bound {α : Type} (zero : α) (h : Heap α) (d c : List Int)
    (hc : ∀ n, n < d.length → 0 ≤ elem c n ∧ elem c n < elem d n) :
    0 ≤ (ndarray.of_dims zero h d).2.offset c ∧
    ((ndarray.of_dims zero h d).2.offset c).toNat < (product d).toNat := by
  have hb := flat_bound d (List.replicate d.length 0) c (by
    intro n hn
    rw [elem_replicate_zero]
    obtain ⟨c1, c2⟩ := hc n hn
    exact ⟨le_refl 0, c1, by omega⟩)
  rw [← fresh_offset zero h d c, ← product_eq_prod] at hb
  obtain ⟨b0, b1⟩ := hb
  exact ⟨b0, by omega⟩

/-- C24: for a freshly constructed array `A` of rank `R >= 1` with positive extents `d`
and an in-range coordinate `c`, every in-range coordinate with the same flat offset is `c`;
writing `v` through `A(c)` makes `A(c)` read `v`, and every other in-range coordinate reads
the initial value before and after the write. -/
theorem fresh_write_frame {α : Type} (zero v : α) (h : Heap α) (d c : List Int)
    (_hR : 1 ≤ d.length) (_hd : ∀ x ∈ d, 0 < x)
    (hcl : c.length = d.length)
    (hc : ∀ n, n < d.length → 0 ≤ elem c n ∧ elem c n < elem d n) :
    (∀ c' : List Int, c'.length = d.length →
      (∀ n, n < d.length → 0 ≤ elem c' n ∧ elem c' n < elem d n) →
      (ndarray.of_dims zero h d).2.offset c' = (ndarray.of_dims zero h d).2.offset c → c' = c) ∧
    ∃ h2 : Heap α,
      ndarray.put (ndarray.of_dims zero h d).1 (ndarray.of_dims zero h d).2 c v = some h2 ∧
      ndarray.get h2 (ndarray.of_dims zero h d).2 c = some v ∧
      ∀ c' : List Int, c'.length = d.length →
        (∀ n, n < d.length → 0 ≤ elem c' n ∧ elem c' n < elem d n) → c' ≠ c →
        ndarray.get (ndarray.of_dims zero h d).1 (ndarray.of_dims zero h d).2 c' = some zero ∧
        ndarray.get h2 (ndarray.of_dims zero h d).2 c' = some zero := by
  have hinj : ∀ c' : List Int, c'.length = d.length →
      (∀ n, n < d.length → 0 ≤ elem c' n ∧ elem c' n < elem d n) →
      (ndarray.of_dims zero h d).2.offset c' = (ndarray.of_dims zero h d).2.offset c → c' = c := by
    intro c' hcl' hc' heq
    rw [fresh_offset, fresh_offset] at heq
    exact flat_inj d (List.replicate d.length 0) c' c (fun n => elem_replicate_zero _ n) hcl' hcl
      (fun n hn => ⟨(hc' n hn).1, by have := (hc' n hn).2; omega⟩)
      (fun n hn => ⟨(hc n hn).1, by have := (hc n hn).2; omega⟩) heq
  refine ⟨hinj, ?_⟩
  have hb : (ndarray.of_dims zero h d).1.get? (ndarray.of_dims zero h d).2.data
      = some (List.replicate (product d).toNat zero) := get_make_shared h _
  have hl : (ndarray.of_dims zero h d).2.data < (ndarray.of_dims zero h d).1.length := by
    simp [ndarray.of_dims, Heap.make_shared]
  obtain ⟨o0, o1⟩ := fresh_offset_bound zero h d c hc
  obtain ⟨m, hm⟩ : ∃ m : Nat, (ndarray.of_dims zero h d).2.offset c = (m : Int) :=
    ⟨_, (Int.toNat_of_nonneg o0).symm⟩
  have hm1 : m < (product d).toNat := by omega
  have hb2 : ((ndarray.of_dims zero h d).1.set (ndarray.of_dims zero h d).2.data
      ((List.replicate (product d).toNat zero).set m v)).get? (ndarray.of_dims zero h d).2.data
      = some ((List.replicate (product d).toNat zero).set m v) := by
    simp [hl]
  refine ⟨(ndarray.of_dims zero h d).1.set (ndarray.of_dims zero h d).2.data
      ((List.replicate (product d).toNat zero).set m v), ?_, ?_, ?_⟩
  · rw [put_eq _ _ _ _ hcl, hm]
    exact store_eq _ _ _ _ _ hb (by simpa using hm1)
  · rw [get_eq _ _ _ hcl, hm, load_eq _ _ _ _ hb2]
    simp [hm1]
  · intro c' hcl' hc' hne
    obtain ⟨p0, p1⟩ := fresh_offset_bound zero h d c' hc'
    obtain ⟨m', hm'⟩ : ∃ m' : Nat, (ndarray.of_dims zero h d).2.offset c' = (m' : Int) :=
      ⟨_, (Int.toNat_of_nonneg p0).symm⟩
    have hm1' : m' < (product d).toNat := by omega
    have hdiff : m ≠ m' := by
      intro e
      apply hne
      apply hinj c' hcl' hc'
      rw [hm, hm', e]
    constructor
    · rw [get_eq _ _ _ hcl', hm', load_eq _ _ _ _ hb]
      simp [hm1']
    · rw [get_eq _ _ _ hcl', hm', load_eq _ _ _ _ hb2]
      simp [hm1', hdiff]

/-- Witness of C24: the array `ndarray<2>(3, 4)`, written at the coordinate `(1, 2)`. -/
theorem fresh_write_frame_witness :
    (1 ≤ [(3 : Int), 4].length ∧ (∀ x ∈ [(3 : Int), 4], 0 < x) ∧
     (∀ n, n < [(3 : Int), 4].length → 0 ≤ elem [1, 2] n ∧ elem [1, 2] n < elem [3, 4] n)) ∧
    (ndarray.of_dims (0 : Int) [] [3, 4]).2.offset [1, 2] = 6 ∧
    ∃ h2 : Heap Int,
      ndarray.put (ndarray.of_dims (0 : Int) [] [3, 4]).1 (ndarray.of_dims (0 : Int) [] [3, 4]).2
        [1, 2] 7 = some h2 ∧
      ndarray.get h2 (ndarray.of_dims (0 : Int) [] [3, 4]).2 [1, 2] = some 7 ∧
      ∀ c' : List Int, c'.length = [(3 : Int), 4].length →
        (∀ n, n < [(3 : Int), 4].length → 0 ≤ elem c' n ∧ elem c' n < elem [3, 4] n) →
        c' ≠ [1, 2] →
        ndarray.get (ndarray.of_dims (0 : Int) [] [3, 4]).1
          (ndarray.of_dims (0 : Int) [] [3, 4]).2 c' = some 0 ∧
        ndarray.get h2 (ndarray.of_dims (0 : Int) [] [3, 4]).2 c' = some 0 :=
  ⟨by decide, by decide,
   (fresh_write_frame (0 : Int) 7 [] [3, 4] [1, 2] (by decide) (by decide) (by decide)
     (by decide)).2⟩

/-- The overload of `operator[]` for a rank other than 1: the view over the selector
collapsed on axis 0, on the same handle. -/
lemma index_collapse (A : ndarray) (i : Int) (hR : 2 ≤ A.rank) :
    A.index i = some (ndarray.of_selector
      ⟨A.rank - 1, 0,
       (List.range (A.rank - 1)).map (fun n =>
          if n < 0 then elem A.count n
          else if n = 0 then elem A.count 0 * elem A.count (0 + 1)
          else elem A.count (n + 1)),
       (List.range (A.rank - 1)).map (fun n =>
          if n < 0 then elem A.start n
          else if n = 0 then elem A.count 0 * elem A.start 0 + elem A.start (0 + 1) + i
          else elem A.start (n + 1)),
       (List.range (A.rank - 1)).map (fun n =>
          if n < 0 then elem A.final n
          else if n = 0 then elem A.count 0 * elem A.start 0 + elem A.final (0 + 1)
          else elem A.final (n + 1))⟩ A.data) := by
  have hne : ¬ A.rank = 1 := by omega
  have hg : A.make_selector.collapse_guard = true := by
    simp [selector.collapse_guard, ndarray.make_selector]; omega
  rw [ndarray.index, if_neg hne, selector.collapse, if_pos hg]
  rfl

/-- C25: for a view `A` of rank `R >= 2` over a buffer whose length is the product of the
count of `A`, and for every index `i`, `A[i]` is a view of rank `R - 1` on the same handle
(`A[i].shares(A)` is true) and the product of its count is again the length of the buffer. -/
theorem index_keeps_storage {α : Type} (h : Heap α) (A : ndarray) (buf : List α) (i : Int)
    (hR : 2 ≤ A.rank) (hcl : A.count.length = A.rank)
    (hbuf : h.get? A.data = some buf) (hbl : (buf.length : Int) = product A.count) :
    ∃ B : ndarray, A.index i = some B ∧ B.rank = A.rank - 1 ∧
      B.shares A = true ∧ B.data = A.data ∧ h.get? B.data = some buf ∧
      (buf.length : Int) = product B.count := by
  have hcount := merge_entries A.count 0 (elem A.count 0 * elem A.count (0 + 1)) (by omega)
  rw [hcl] at hcount
  refine ⟨_, index_collapse A i hR, rfl, ?_, rfl, hbuf, ?_⟩
  · simp [ndarray.shares, ndarray.of_selector]
  · rw [hbl, product_eq_prod, product_eq_prod]
    simp only [ndarray.of_selector]
    rw [hcount]
    have e : A.count = A.count[0] :: A.count[1] :: A.count.drop 2 := by
      conv_lhs => rw [← List.drop_zero A.count]
      rw [List.drop_eq_getElem_cons (by omega : 0 < A.count.length),
        List.drop_eq_getElem_cons (by omega : 0 + 1 < A.count.length)]
    conv_lhs => rw [e]
    rw [elem_eq_getElem A.count 0 (by omega), elem_eq_getElem A.count (0 + 1) (by omega)]
    simp only [List.take_zero, List.nil_append, List.prod_cons]
    ring

/-- Witness of C25: the array `ndarray<3>(2, 3, 4)` over its 24 elements, at index 1. -/
theorem index_keeps_storage_witness :
    (2 ≤ (ndarray.mk 3 0 [2, 3, 4] [0, 0, 0] [2, 3, 4] [1, 1, 1] [12, 4, 1] 0).rank ∧
     ((List.replicate 24 (0 : Int)).length : Int) = product [2, 3, 4]) ∧
    ∃ B : ndarray,
      (ndarray.mk 3 0 [2, 3, 4] [0, 0, 0] [2, 3, 4] [1, 1, 1] [12, 4, 1] 0).index 1 = some B ∧
      B.rank = (ndarray.mk 3 0 [2, 3, 4] [0, 0, 0] [2, 3, 4] [1, 1, 1] [12, 4, 1] 0).rank - 1 ∧
      B.shares (ndarray.mk 3 0 [2, 3, 4] [0, 0, 0] [2, 3, 4] [1, 1, 1] [12, 4, 1] 0) = true ∧
      B.data = (ndarray.mk 3 0 [2, 3, 4] [0, 0, 0] [2, 3, 4] [1, 1, 1] [12, 4, 1] 0).data ∧
      [List.replicate 24 (0 : Int)].get? B.data = some (List.replicate 24 (0 : Int)) ∧
      ((List.replicate 24 (0 : Int)).length : Int) = product B.count :=
  ⟨by decide,
   index_keeps_storage [List.replicate 24 (0 : Int)]
     (ndarray.mk 3 0 [2, 3, 4] [0, 0, 0] [2, 3, 4] [1, 1, 1] [12, 4, 1] 0)
     (List.replicate 24 (0 : Int)) 1 (by decide) (by decide) (by decide) (by decide)⟩

end Hpp
